import Mathlib

/-!
Verification development for a recursive Windows-filename sanitizer.

The program walks a directory tree bottom-up (files before directories at
each level, children before parents), checks each base name with
`is_valid_windows_filename`, produces a corrected candidate with
`sanitize_filename`, resolves collisions by appending numeric suffixes, and
renames the entry, logging every action.

Strings are modelled through their character lists (`List Char`); machine
filesystem state is modelled as a tree of named entries; the possibility of
an individual rename failing is modelled by an oracle deciding, per rename,
whether the underlying filesystem call succeeds.
-/

namespace Sanitizer

/-! ## Character classes (from the regexes in the source) -/

def isAsciiLower (c : Char) : Bool := 'a' ≤ c && c ≤ 'z'

def isAsciiUpper (c : Char) : Bool := 'A' ≤ c && c ≤ 'Z'

def isAsciiDigit (c : Char) : Bool := '0' ≤ c && c ≤ '9'

def isAlnum (c : Char) : Bool := isAsciiLower c || isAsciiUpper c || isAsciiDigit c

/-- Character class of the validator regex `[a-zA-Z0-9_\-\.]`. -/
def allowedChar (c : Char) : Bool := isAlnum c || c = '_' || c = '-' || c = '.'

/-- Characters kept by the stem substitution `re.sub(r'[^a-zA-Z0-9_\-]', ...)`. -/
def stemKeep (c : Char) : Bool := isAlnum c || c = '_' || c = '-'

/-- Characters kept by the extension substitution `re.sub(r'[^a-zA-Z0-9\.]', ...)`. -/
def extKeep (c : Char) : Bool := isAlnum c || c = '.'

/-! ## Python string primitives used by the source -/

/-- `re.sub` with a single-character negated class: every character failing
`keep` is replaced by the replacement string `rep`. -/
def pySub (keep : Char → Bool) (rep : List Char) (l : List Char) : List Char :=
  l.flatMap (fun c => if keep c then [c] else rep)

/-- Python `str.strip(chars)`: remove leading and trailing characters
belonging to `cs`. -/
def pyStripChars (cs : List Char) (l : List Char) : List Char :=
  ((l.dropWhile (fun c => cs.contains c)).reverse.dropWhile (fun c => cs.contains c)).reverse

/-- Worker for `os.path.splitext`, scanning the reversed name.  It returns
`some (s, e)` when a split happens, where `s` is the reversed stem and `e`
the reversed extension; it returns `none` when the name has no period, or
when every character before the last period is itself a period (leading-dot
names such as `.env` have no extension in Python). -/
def splitextGo : List Char → Option (List Char × List Char)
  | [] => none
  | c :: cs =>
    if c = '.' then
      if cs.any (fun x => x ≠ '.') then some (cs, [c]) else none
    else
      match splitextGo cs with
      | some (s, e) => some (s, c :: e)
      | none => none

/-- Model of `os.path.splitext` on a base name (no path separators): split
into stem and extension at the last period, the extension keeping the
period; no split when there is no period or only leading periods precede it. -/
def splitextL (l : List Char) : List Char × List Char :=
  match splitextGo l.reverse with
  | some (s, e) => (s.reverse, e.reverse)
  | none => (l, [])

/-! ## The validator: `is_valid_windows_filename` -/

/-- The Windows reserved device names of the source, as character lists. -/
def reservedNames : List (List Char) :=
  ["CON", "PRN", "AUX", "NUL", "COM1", "COM2", "COM3", "COM4", "COM5",
   "COM6", "COM7", "COM8", "COM9", "LPT1", "LPT2", "LPT3", "LPT4",
   "LPT5", "LPT6", "LPT7", "LPT8", "LPT9"].map String.data

/-- Python `str.upper` restricted to the ASCII range, which is all the
comparison against the reserved-name set can observe. -/
def pyUpper (c : Char) : Char := c.toUpper

/-- `l.endswith(c)` on character lists. -/
def lastCharIs (l : List Char) (c : Char) : Bool :=
  match l.reverse with
  | x :: _ => x = c
  | [] => false

def endsWithSpaceDot (l : List Char) : Bool := lastCharIs l ' ' || lastCharIs l '.'

/-- `re.match(r'^[a-zA-Z0-9_\-\.]+$', name)` as a Boolean: either the whole
(nonempty) name is in the class, or everything up to a single trailing
newline is — `$` also matches just before a final newline in Python. -/
def matchesAllowedPattern (l : List Char) : Bool :=
  (!l.isEmpty && l.all allowedChar) ||
    (match l.reverse with
     | c :: rest => c = '\n' && !rest.isEmpty && rest.all allowedChar
     | [] => false)

/-- `is_valid_windows_filename` from the source: reserved-stem check, then
trailing space/period check, then the allowed-character pattern. -/
def is_valid_windows_filename (s : String) : Bool :=
  if reservedNames.contains ((splitextL s.data).1.map pyUpper) then false
  else if endsWithSpaceDot s.data then false
  else if !matchesAllowedPattern s.data then false
  else true

/-! ## The sanitizer: `sanitize_filename` -/

def unnamedFile : List Char := "unnamed_file".data

/-- Stem pipeline of `sanitize_filename`: substitute disallowed characters,
strip spaces and periods at both ends, fall back to `unnamed_file` when
empty. -/
def cleanStem (rep : List Char) (st : List Char) : List Char :=
  let s1 := pySub stemKeep rep st
  let s2 := pyStripChars [' ', '.'] s1
  if s2.isEmpty then unnamedFile else s2

/-- Extension pipeline of `sanitize_filename`: substitute disallowed
characters when the extension is nonempty. -/
def cleanExt (rep : List Char) (exL : List Char) : List Char :=
  if exL.isEmpty then [] else pySub extKeep rep exL

def sanitizeL (rep : List Char) (l : List Char) : List Char :=
  cleanStem rep (splitextL l).1 ++ cleanExt rep (splitextL l).2

/-- `sanitize_filename(filename, replacement)` from the source. -/
def sanitize_filename (s : String) (rep : String) : String :=
  ⟨sanitizeL rep.data s.data⟩

/-- `sanitize_filename` at its default replacement `'_'`. -/
def sanitizeS (s : String) : String := sanitize_filename s "_"

/-! ## Decimal rendering of the collision counter (Python `str(n)`) -/

/-- Little-endian base-10 digit extraction, with structural fuel so that the
kernel can evaluate it. -/
def natToDigitsAux : Nat → Nat → List Nat
  | 0, _ => []
  | f + 1, n => if n = 0 then [] else n % 10 :: natToDigitsAux f (n / 10)

def natDigits (n : Nat) : List Nat := natToDigitsAux n n

def digitChar (d : Nat) : Char := Char.ofNat (48 + d)

/-- Decimal rendering of a natural number, as Python `str` produces inside
the f-strings `f"{base_name}_{counter}{ext}"`. -/
def natReprL (n : Nat) : List Char :=
  if n = 0 then ['0'] else ((natDigits n).map digitChar).reverse

def natReprS (n : Nat) : String := ⟨natReprL n⟩

/-! ## Filesystem model -/

/-- A filesystem entry: a regular file or a directory with children, each
carrying its base name.  The filesystem itself is the data store; an entry
has no other state. -/
inductive Entry where
  | file : String → Entry
  | dir : String → List Entry → Entry

def ename : Entry → String
  | .file n => n
  | .dir n _ => n

def isDirE : Entry → Bool
  | .file _ => false
  | .dir _ _ => true

def entryKind : Entry → Bool := isDirE

/-- Renaming changes only the final path segment of an entry. -/
def withName : Entry → String → Entry
  | .file _, m => .file m
  | .dir _ cs, m => .dir m cs

def namesOf (es : List Entry) : List String := es.map ename

/-- `Path.exists` inside one directory: some entry (file or directory)
bears the name. -/
def existsName (es : List Entry) (n : String) : Bool := es.any (fun e => ename e = n)

/-- Perform `old_path.rename(new_path)` inside one directory listing. -/
def renameIn (es : List Entry) (old fin : String) : List Entry :=
  es.map (fun e => if ename e = old then withName e fin else e)

inductive EKind where
  | file : EKind
  | dir : EKind
deriving DecidableEq

/-- One audit-log entry: the kind of entry renamed, the old path, the
attempted new path, and whether the underlying rename succeeded. -/
structure Event where
  kind : EKind
  oldPath : List String
  newPath : List String
  ok : Bool
deriving DecidableEq

/-- Failure model for `OSError` during a rename: the oracle decides, from
the old and attempted new paths, whether the filesystem call succeeds. -/
abbrev Oracle := List String → List String → Bool

/-- The oracle under which every rename succeeds. -/
def orcOk : Oracle := fun _ _ => true

/-- An oracle that fails (as with a permission error) every rename whose
old path is the given one, and lets every other rename succeed. -/
def orcFailAt (bad : List String) : Oracle := fun op _ => op ≠ bad

/-! ## Collision resolution -/

/-- The candidate name tried for a colliding file: `_N` inserted between the
sanitized stem and the extension (`f"{base_name}_{counter}{ext}"`). -/
def fileSuffix (cand : String) (n : Nat) : String :=
  ⟨(splitextL cand.data).1 ++ '_' :: (natReprL n ++ (splitextL cand.data).2)⟩

/-- The candidate name tried for a colliding directory: `_N` appended to the
whole name (`f"{base_name}_{counter}"`). -/
def dirSuffix (cand : String) (n : Nat) : String :=
  ⟨cand.data ++ '_' :: natReprL n⟩

def applySuffix (k : EKind) (cand : String) (n : Nat) : String :=
  match k with
  | .file => fileSuffix cand n
  | .dir => dirSuffix cand n

/-- The `while new_path.exists()` loop of the source: keep proposing
`mkN counter` while the current proposal is taken.  `fuel` bounds the number
of existence checks; the callers pass one more than the number of entries in
the directory, which always suffices. -/
def resolveLoop (es : List Entry) (mkN : Nat → String) : String → Nat → Nat → String
  | nm, _, 0 => nm
  | nm, ctr, fuel + 1 =>
    if existsName es nm then resolveLoop es mkN (mkN ctr) (ctr + 1) fuel else nm

/-- Collision resolution for a file candidate (counter starts at 1). -/
def resolveFile (es : List Entry) (cand : String) : String :=
  resolveLoop es (fileSuffix cand) cand 1 (es.length + 1)

/-- Collision resolution for a directory candidate (counter starts at 1). -/
def resolveDir (es : List Entry) (cand : String) : String :=
  resolveLoop es (dirSuffix cand) cand 1 (es.length + 1)

def resolveK (k : EKind) (es : List Entry) (cand : String) : String :=
  match k with
  | .file => resolveFile es cand
  | .dir => resolveDir es cand

/-! ## The tree renamer: `rename_files_in_directory` -/

/-- Process one base name of the current directory, as one iteration of the
`for old_name in files` / `for old_name in dirs` loops: skip valid names;
otherwise sanitize, resolve collisions against the live listing, and attempt
the rename, logging success or failure. -/
def processOne (k : EKind) (orc : Oracle) (pre : List String) (es : List Entry)
    (old : String) : List Entry × List Event :=
  if is_valid_windows_filename old then (es, [])
  else
    let fin := resolveK k es (sanitizeS old)
    let op := pre ++ [old]
    let np := pre ++ [fin]
    if orc op np then (renameIn es old fin, [⟨k, op, np, true⟩])
    else (es, [⟨k, op, np, false⟩])

/-- Process a snapshot list of base names left to right, threading the
directory listing. -/
def processNames (k : EKind) (orc : Oracle) (pre : List String) :
    List Entry → List String → List Entry × List Event
  | es, [] => (es, [])
  | es, n :: ns =>
    let r := processOne k orc pre es n
    let rest := processNames k orc pre r.1 ns
    (rest.1, r.2 ++ rest.2)

/-- The `files` component of the `os.walk` triple for one directory. -/
def fileNamesOf (es : List Entry) : List String :=
  (es.filter (fun e => !isDirE e)).map ename

/-- The `dirs` component of the `os.walk` triple for one directory. -/
def dirNamesOf (es : List Entry) : List String :=
  (es.filter isDirE).map ename

/-- Recurse into every subdirectory of a listing (the part of the walk that
yields deeper triples first), leaving this level's names untouched.  `g` is
the processing applied to a subdirectory's children. -/
def recurseWith (g : String → List Entry → List Entry × List Event) (es : List Entry) :
    List (Entry × List Event) :=
  es.map (fun e =>
    match e with
    | Entry.file n => (Entry.file n, ([] : List Event))
    | Entry.dir n cs =>
      let c := g n cs
      (Entry.dir n c.1, c.2))

/-- Process one `os.walk` triple after the subtrees are done: the deep
events come first, then this level's files are renamed, then this level's
subdirectory names. -/
def levelPhase (orc : Oracle) (pre : List String) (rs : List (Entry × List Event))
    (fileNs dirNs : List String) : List Entry × List Event :=
  let es1 := rs.map Prod.fst
  let deep := (rs.map Prod.snd).flatten
  let fph := processNames .file orc pre es1 fileNs
  let dph := processNames .dir orc pre fph.1 dirNs
  (dph.1, deep ++ fph.2 ++ dph.2)

/-- Bottom-up processing of the children of one directory, as
`os.walk(directory, topdown=False)` drives it: every subdirectory subtree is
fully processed first (children before parents), then the files of this
level, then the subdirectory names of this level.  `fuel` bounds the
recursion depth structurally; any fuel that `fits` gives the same result. -/
def procChildren (orc : Oracle) : Nat → List String → List Entry → List Entry × List Event
  | 0, _, es => (es, [])
  | f + 1, pre, es =>
    levelPhase orc pre (recurseWith (fun n cs => procChildren orc f (pre ++ [n]) cs) es)
      (fileNamesOf es) (dirNamesOf es)

/-- `fits fuel es`: the fuel is enough to reach every level of the tree, so
that `procChildren orc fuel` agrees with the unbounded recursion the Python
`os.walk` performs.  Any two fitting fuels give the same result
(`procChildren_fuel_irrel`). -/
def fits : Nat → List Entry → Bool
  | 0, _ => false
  | f + 1, es => es.all (fun e =>
      match e with
      | Entry.file _ => true
      | Entry.dir _ cs => fits f cs)

/-! ## The entry point: `main` -/

/-- The characters Python `str.isspace()` accepts, which `str.strip()` with
no argument removes: ASCII whitespace, the information-separator controls
U+001C..U+001F, next-line U+0085, no-break space U+00A0, Ogham space mark
U+1680, the Unicode space separators U+2000..U+200A, the line and paragraph
separators U+2028 and U+2029, and U+202F, U+205F, U+3000. -/
def pyWhitespace : List Char :=
  ['\t', '\n', '\x0b', '\x0c', '\r', '\x1c', '\x1d', '\x1e', '\x1f', ' ',
   '\x85', '\xa0', '\u1680', '\u2000', '\u2001', '\u2002', '\u2003',
   '\u2004', '\u2005', '\u2006', '\u2007', '\u2008', '\u2009', '\u200a',
   '\u2028', '\u2029', '\u202f', '\u205f', '\u3000']

def pyStrip (s : String) : String := ⟨pyStripChars pyWhitespace s.data⟩

/-- The audit-log lines the program emits, tagged by kind. -/
inductive LogMsg where
  | errNoDir : LogMsg
  | procStart : String → LogMsg
  | errNotExist : LogMsg
  | ev : Event → LogMsg
  | complete : LogMsg
deriving DecidableEq

/-- `rename_files_in_directory(directory)`: when the directory does not
exist, log an error and return; otherwise process the tree.  `fsOpt` is
`none` exactly when the path does not exist; `fuel` must satisfy `fits`. -/
def rename_files_in_directory (orc : Oracle) (fuel : Nat) (d : String)
    (fsOpt : Option (List Entry)) : Option (List Entry) × List LogMsg :=
  match fsOpt with
  | none => (none, [.errNotExist])
  | some es =>
    let r := procChildren orc fuel [d] es
    (some r.1, r.2.map LogMsg.ev)

/-- `main()`: read and strip the directory path; an empty answer is fatal;
otherwise log the start message, run the tree renamer, and log the
completion message. -/
def main_run (orc : Oracle) (fuel : Nat) (raw : String) (fsOpt : Option (List Entry)) :
    List LogMsg :=
  let d := pyStrip raw
  if d = "" then [.errNoDir]
  else [.procStart d] ++ (rename_files_in_directory orc fuel d fsOpt).2 ++ [.complete]

/-! ## Derived notions used by the statements -/

/-- Decimal value of a little-endian digit list (inverse of `natDigits`). -/
def undigits : List Nat → Nat
  | [] => 0
  | d :: ds => d + 10 * undigits ds

/-- Boolean duplicate-freedom of a name list. -/
def nodupB : List String → Bool
  | [] => true
  | n :: ns => !ns.contains n && nodupB ns

/-- `wfL fuel es`: down to depth `fuel`, every directory level of the tree
has pairwise distinct names — what a real filesystem guarantees.  Like
`fits`, it also certifies that `fuel` reaches every level. -/
def wfL : Nat → List Entry → Bool
  | 0, _ => false
  | f + 1, es => nodupB (namesOf es) && es.all (fun e =>
      match e with
      | Entry.file _ => true
      | Entry.dir _ cs => wfL f cs)

/-- The final name an invalid entry may lawfully receive: its sanitized
candidate, possibly carrying one numeric collision suffix. -/
def GoodName (k : EKind) (old fin : String) : Prop :=
  fin = sanitizeS old ∨ ∃ n, 1 ≤ n ∧ fin = applySuffix k (sanitizeS old) n

mutual
/-- Correspondence between an entry reachable at traversal time and the
entry it has become when processing completes with no rename failure:
valid names are left untouched, invalid names are renamed to a `GoodName`,
and directory contents correspond recursively. -/
inductive Corr : Entry → Entry → Prop where
  | fileOk : ∀ n, is_valid_windows_filename n = true → Corr (.file n) (.file n)
  | fileRen : ∀ n n2, is_valid_windows_filename n = false → GoodName .file n n2 →
      Corr (.file n) (.file n2)
  | dirOk : ∀ n cs cs2, is_valid_windows_filename n = true → CorrList cs cs2 →
      Corr (.dir n cs) (.dir n cs2)
  | dirRen : ∀ n n2 cs cs2, is_valid_windows_filename n = false → GoodName .dir n n2 →
      CorrList cs cs2 → Corr (.dir n cs) (.dir n2 cs2)
/-- Positional correspondence of two directory listings under `Corr`. -/
inductive CorrList : List Entry → List Entry → Prop where
  | nil : CorrList [] []
  | cons : ∀ e e2 es es2, Corr e e2 → CorrList es es2 → CorrList (e :: es) (e2 :: es2)
end

/-- The oracle-independent shape of an audit trace: which kind of entry was
attempted at which (old) path, in which order. -/
def skel (t : List Event) : List (EKind × List String) :=
  t.map (fun ev => (ev.kind, ev.oldPath))

/-- How one entry of a directory listing evolves over one rename phase
(`processNames`) with snapshot `ns` and untouchable names `K`: only the name
can change; entries whose name is not in the snapshot, and valid-named
snapshot entries, are untouched; invalid-named snapshot entries are renamed
to a `GoodName` avoiding `K`. -/
def PhaseRel (k : EKind) (ns K : List String) (c c2 : Entry) : Prop :=
  (∃ m, c2 = withName c m) ∧
  (ename c ∉ ns → c2 = c) ∧
  (ename c ∈ ns → is_valid_windows_filename (ename c) = false →
    ∃ fin, GoodName k (ename c) fin ∧ fin ∉ K ∧ c2 = withName c fin) ∧
  (ename c ∈ ns → is_valid_windows_filename (ename c) = true → c2 = c)

/-- How one entry evolves over the recursion into subdirectories: files are
untouched, directory names are untouched, directory contents correspond. -/
def RecRel (e e2 : Entry) : Prop :=
  (∀ n, e = .file n → e2 = .file n) ∧
  (∀ n cs, e = .dir n cs → ∃ cs2, e2 = .dir n cs2 ∧ CorrList cs cs2)

/-! ## Sanity checks mirroring the concrete cases of the specification -/

example : sanitizeS "" = "unnamed_file" := by decide
example : sanitizeS "my file!.txt" = "my_file_.txt" := by decide
example : sanitizeS "..." = "___" := by decide
example : sanitizeS ".env" = "_env" := by decide
example : sanitizeS "CON.txt" = "CON.txt" := by decide
example : is_valid_windows_filename "CON.txt" = false := by decide
example : is_valid_windows_filename "CONTACT.txt" = true := by decide
example : is_valid_windows_filename ".env" = true := by decide
example : natReprS 210 = "210" := by decide
example : resolveFile [Entry.file "a.txt", Entry.file "a_1.txt"] "a.txt" = "a_2.txt" := by decide
example : pyStrip "\xa0\u2028\u3000" = "" := by decide
example : pyStrip " \xa0data\u205f " = "data" := by decide

/-! ## Lemmas about `splitextL` -/

theorem splitextGo_concat : ∀ r s e, splitextGo r = some (s, e) → e ++ s = r := by
  intro r
  induction r with
  | nil => intro s e h; simp [splitextGo] at h
  | cons c cs ih =>
    intro s e h
    by_cases hc : c = '.'
    · subst hc
      simp only [splitextGo, if_pos rfl] at h
      by_cases ha : cs.any (fun x => x ≠ '.')
      · rw [if_pos ha] at h
        cases h
        rfl
      · rw [if_neg ha] at h
        cases h
    · simp only [splitextGo, if_neg hc] at h
      cases hgo : splitextGo cs with
      | none => rw [hgo] at h; cases h
      | some p =>
        obtain ⟨s1, e1⟩ := p
        rw [hgo] at h
        injection h with h1
        injection h1 with h2 h3
        subst h2
        subst h3
        simpa using ih s1 e1 hgo

theorem splitextGo_none_of_no_dot : ∀ r, '.' ∉ r → splitextGo r = none := by
  intro r
  induction r with
  | nil => intro _; rfl
  | cons c cs ih =>
    intro h
    have hc : c ≠ '.' := by
      intro hc; exact h (hc ▸ List.mem_cons_self c cs)
    have hcs : '.' ∉ cs := fun hm => h (List.mem_cons_of_mem c hm)
    simp only [splitextGo, if_neg hc, ih hcs]

theorem splitextGo_shape : ∀ r s e, splitextGo r = some (s, e) →
    ∃ t, e = t ++ ['.'] ∧ '.' ∉ t ∧ s.any (fun x => x ≠ '.') = true := by
  intro r
  induction r with
  | nil => intro s e h; simp [splitextGo] at h
  | cons c cs ih =>
    intro s e h
    by_cases hc : c = '.'
    · subst hc
      simp only [splitextGo, if_pos rfl] at h
      by_cases ha : cs.any (fun x => x ≠ '.')
      · rw [if_pos ha] at h
        cases h
        exact ⟨[], rfl, by simp, ha⟩
      · rw [if_neg ha] at h
        cases h
    · simp only [splitextGo, if_neg hc] at h
      cases hgo : splitextGo cs with
      | none => rw [hgo] at h; cases h
      | some p =>
        obtain ⟨s1, e1⟩ := p
        rw [hgo] at h
        injection h with h1
        injection h1 with h2 h3
        subst h2
        subst h3
        obtain ⟨t, ht, hnd, hany⟩ := ih s1 e1 hgo
        exact ⟨c :: t, by simp [ht], by
          intro hm
          rcases List.mem_cons.mp hm with h1 | h1
          · exact hc h1.symm
          · exact hnd h1, hany⟩

theorem splitextGo_at : ∀ bl ar, '.' ∉ bl →
    splitextGo (bl ++ '.' :: ar) =
      (if ar.any (fun x => x ≠ '.') then some (ar, bl ++ ['.']) else none) := by
  intro bl
  induction bl with
  | nil =>
    intro ar _
    simp [splitextGo]
  | cons c cs ih =>
    intro ar h
    have hc : c ≠ '.' := by
      intro hc; exact h (hc ▸ List.mem_cons_self c cs)
    have hcs : '.' ∉ cs := fun hm => h (List.mem_cons_of_mem c hm)
    have ih2 := ih ar hcs
    by_cases ha : (ar.any fun x => x ≠ '.') = true
    · rw [if_pos ha] at ih2
      simp only [List.cons_append, splitextGo, if_neg hc, List.append_eq, ih2, if_pos ha]
    · rw [if_neg ha] at ih2
      simp only [List.cons_append, splitextGo, if_neg hc, List.append_eq, ih2, if_neg ha]

theorem splitext_concat (l : List Char) : (splitextL l).1 ++ (splitextL l).2 = l := by
  unfold splitextL
  cases hgo : splitextGo l.reverse with
  | none => simp
  | some p =>
    obtain ⟨s, e⟩ := p
    have h := splitextGo_concat l.reverse s e hgo
    have h2 : s.reverse ++ e.reverse = l := by
      have h3 := congrArg List.reverse h
      simpa using h3
    simpa using h2

theorem splitext_no_dot (l : List Char) (h : '.' ∉ l) : splitextL l = (l, []) := by
  unfold splitextL
  rw [splitextGo_none_of_no_dot l.reverse (by simpa using h)]

theorem splitext_split (a b : List Char) (hb : '.' ∉ b)
    (ha : a.any (fun x => x ≠ '.') = true) :
    splitextL (a ++ '.' :: b) = (a, '.' :: b) := by
  unfold splitextL
  have hrev : (a ++ '.' :: b).reverse = b.reverse ++ '.' :: a.reverse := by
    simp
  rw [hrev, splitextGo_at b.reverse a.reverse (by simpa using hb)]
  have ha2 : a.reverse.any (fun x => x ≠ '.') = true := by
    simpa using ha
  rw [if_pos ha2]
  simp

theorem splitext_ext_shape (l : List Char) :
    (splitextL l).2 = [] ∨ ∃ r, (splitextL l).2 = '.' :: r ∧ '.' ∉ r := by
  unfold splitextL
  cases hgo : splitextGo l.reverse with
  | none => exact Or.inl rfl
  | some p =>
    obtain ⟨s, e⟩ := p
    obtain ⟨t, ht, hnd, _⟩ := splitextGo_shape l.reverse s e hgo
    refine Or.inr ⟨t.reverse, ?_, by simpa using hnd⟩
    show e.reverse = '.' :: t.reverse
    rw [ht]
    simp

theorem splitext_stem_any (l : List Char) (h : (splitextL l).2 ≠ []) :
    (splitextL l).1.any (fun x => x ≠ '.') = true := by
  revert h
  unfold splitextL
  cases hgo : splitextGo l.reverse with
  | none => intro h; exact absurd rfl h
  | some p =>
    obtain ⟨s, e⟩ := p
    intro _
    obtain ⟨t, _, _, hany⟩ := splitextGo_shape l.reverse s e hgo
    show s.reverse.any (fun x => x ≠ '.') = true
    simpa using hany

/-! ## Lemmas about the sanitizer pipeline -/

theorem pySub_mem {keep : Char → Bool} {rep l : List Char} {c : Char}
    (h : c ∈ pySub keep rep l) : (keep c = true ∧ c ∈ l) ∨ c ∈ rep := by
  unfold pySub at h
  rw [List.mem_flatMap] at h
  obtain ⟨a, ha, hc⟩ := h
  by_cases hk : keep a
  · rw [if_pos hk] at hc
    rw [List.mem_singleton] at hc
    subst hc
    exact Or.inl ⟨hk, ha⟩
  · rw [if_neg hk] at hc
    exact Or.inr hc

theorem pySub_keep_id {keep : Char → Bool} {rep l : List Char}
    (h : ∀ c ∈ l, keep c = true) : pySub keep rep l = l := by
  unfold pySub
  induction l with
  | nil => rfl
  | cons c t ih =>
    rw [List.flatMap_cons, if_pos (h c (List.mem_cons_self c t))]
    have := ih (fun c hc => h c (List.mem_cons_of_mem _ hc))
    unfold pySub at this
    rw [this]
    rfl

theorem dropWhile_eq_self_of_all {p : Char → Bool} {l : List Char}
    (h : ∀ c ∈ l, p c = false) : l.dropWhile p = l := by
  cases l with
  | nil => rfl
  | cons c t =>
    rw [List.dropWhile_cons_of_neg]
    rw [h c (List.mem_cons_self c t)]
    simp

theorem pyStripChars_id {cs l : List Char}
    (h : ∀ c ∈ l, cs.contains c = false) : pyStripChars cs l = l := by
  unfold pyStripChars
  rw [dropWhile_eq_self_of_all h]
  rw [dropWhile_eq_self_of_all (fun c hc => h c (List.mem_reverse.mp hc))]
  simp

theorem pyStripChars_mem {cs l : List Char} {c : Char}
    (h : c ∈ pyStripChars cs l) : c ∈ l := by
  unfold pyStripChars at h
  rw [List.mem_reverse] at h
  have h1 := (List.dropWhile_sublist _).subset h
  rw [List.mem_reverse] at h1
  exact (List.dropWhile_sublist _).subset h1

theorem stemKeep_ne_dot {c : Char} (h : stemKeep c = true) : c ≠ '.' := by
  intro he
  subst he
  exact absurd h (by decide)

theorem stemKeep_ne_space {c : Char} (h : stemKeep c = true) : c ≠ ' ' := by
  intro he
  subst he
  exact absurd h (by decide)

theorem cleanStem_chars {st : List Char} :
    ∀ c ∈ cleanStem ['_'] st, stemKeep c = true := by
  intro c hc
  unfold cleanStem at hc
  by_cases he : (pyStripChars [' ', '.'] (pySub stemKeep ['_'] st)).isEmpty
  · rw [if_pos he] at hc
    revert hc
    revert c
    decide
  · rw [if_neg he] at hc
    have h1 := pyStripChars_mem hc
    rcases pySub_mem h1 with ⟨hk, _⟩ | hr
    · exact hk
    · rw [List.mem_singleton] at hr
      subst hr
      decide

theorem cleanStem_ne_nil (rep st : List Char) : cleanStem rep st ≠ [] := by
  unfold cleanStem
  by_cases he : (pyStripChars [' ', '.'] (pySub stemKeep rep st)).isEmpty
  · rw [if_pos he]
    decide
  · rw [if_neg he]
    intro hne
    rw [hne] at he
    exact he rfl

theorem cleanStem_of_kept {A : List Char} (h : ∀ c ∈ A, stemKeep c = true)
    (hne : A ≠ []) : cleanStem ['_'] A = A := by
  have hstrip : pyStripChars [' ', '.'] A = A := by
    refine pyStripChars_id ?_
    intro c hc
    have hk := h c hc
    have h1 := stemKeep_ne_dot hk
    have h2 := stemKeep_ne_space hk
    simp [h1, h2]
  have hie : A.isEmpty = false := by
    cases A with
    | nil => exact absurd rfl hne
    | cons a t => rfl
  unfold cleanStem
  simp only [pySub_keep_id h, hstrip, hie]
  simp

theorem extKeep_underscore : extKeep '_' = false := by decide

theorem pySub_ext_id {l : List Char}
    (h : ∀ c ∈ l, extKeep c = true ∨ c = '_') : pySub extKeep ['_'] l = l := by
  unfold pySub
  induction l with
  | nil => rfl
  | cons c t ih =>
    rw [List.flatMap_cons]
    have ht := ih (fun c hc => h c (List.mem_cons_of_mem _ hc))
    unfold pySub at ht
    rw [ht]
    rcases h c (List.mem_cons_self c t) with hk | hu
    · rw [if_pos hk]
      rfl
    · subst hu
      rw [if_neg (by decide)]
      rfl

/-- Shape of a sanitized name (default replacement): nonempty stem of kept
characters, then an optional extension starting with the only period. -/
theorem sanitize_structure (l : List Char) :
    sanitizeL ['_'] l = cleanStem ['_'] (splitextL l).1 ++ cleanExt ['_'] (splitextL l).2 ∧
    cleanStem ['_'] (splitextL l).1 ≠ [] ∧
    (∀ c ∈ cleanStem ['_'] (splitextL l).1, stemKeep c = true) ∧
    (cleanExt ['_'] (splitextL l).2 = [] ∨
      ∃ r, cleanExt ['_'] (splitextL l).2 = '.' :: r ∧ '.' ∉ r ∧
        ∀ c ∈ r, extKeep c = true ∨ c = '_') := by
  refine ⟨rfl, cleanStem_ne_nil _ _, cleanStem_chars, ?_⟩
  rcases splitext_ext_shape l with he | ⟨r, hr, hnd⟩
  · rw [he]
    exact Or.inl rfl
  · rw [hr]
    unfold cleanExt
    rw [if_neg (by simp)]
    unfold pySub
    rw [List.flatMap_cons, if_pos (by decide)]
    refine Or.inr ⟨r.flatMap (fun c => if extKeep c then [c] else ['_']), rfl, ?_, ?_⟩
    · intro hm
      rcases pySub_mem hm with ⟨_, hmem⟩ | hrep
      · exact hnd hmem
      · rw [List.mem_singleton] at hrep
        cases hrep
    · intro c hc
      rcases pySub_mem hc with ⟨hk, _⟩ | hrep
      · exact Or.inl hk
      · rw [List.mem_singleton] at hrep
        exact Or.inr hrep

theorem sanitizeL_idem (l : List Char) :
    sanitizeL ['_'] (sanitizeL ['_'] l) = sanitizeL ['_'] l := by
  obtain ⟨heq, hne, hstem, hext⟩ := sanitize_structure l
  set A := cleanStem ['_'] (splitextL l).1 with hA
  set B := cleanExt ['_'] (splitextL l).2 with hB
  have hAnd : '.' ∉ A := fun hm => stemKeep_ne_dot (hstem _ hm) rfl
  rcases hext with hBe | ⟨r, hBr, hrd, hrk⟩
  · rw [heq, hBe, List.append_nil]
    unfold sanitizeL
    rw [splitext_no_dot A hAnd]
    rw [cleanStem_of_kept hstem hne]
    unfold cleanExt
    simp
  · rw [heq, hBr]
    unfold sanitizeL
    have hany : A.any (fun x => x ≠ '.') = true := by
      cases hAcase : A with
      | nil => exact absurd hAcase hne
      | cons a t =>
        have ha := hstem a (by rw [hAcase]; exact List.mem_cons_self a t)
        rw [List.any_cons]
        have := stemKeep_ne_dot ha
        simp [this]
    rw [splitext_split A r hrd hany]
    rw [cleanStem_of_kept hstem hne]
    unfold cleanExt
    rw [if_neg (by simp)]
    have : pySub extKeep ['_'] ('.' :: r) = '.' :: r := by
      refine pySub_ext_id ?_
      intro c hc
      rcases List.mem_cons.mp hc with h1 | h1
      · subst h1
        exact Or.inl (by decide)
      · exact hrk c h1
    rw [this]

theorem sanitizeL_ne_nil (rep l : List Char) : sanitizeL rep l ≠ [] := by
  unfold sanitizeL
  intro h
  rcases List.append_eq_nil.mp h with ⟨h1, _⟩
  exact cleanStem_ne_nil rep _ h1

/-! ## Characterization of the split point -/

theorem last_dot_aux : ∀ (n : Nat) (b a l : List Char), b.length ≤ n →
    l = a ++ '.' :: b → a.any (fun x => x ≠ '.') = true →
    ∃ a2 b2, l = a2 ++ '.' :: b2 ∧ '.' ∉ b2 ∧ a2.any (fun x => x ≠ '.') = true ∧
      splitextL l = (a2, '.' :: b2) := by
  intro n
  induction n with
  | zero =>
    intro b a l hlen heq hany
    have hb : b = [] := List.eq_nil_of_length_eq_zero (Nat.le_zero.mp hlen)
    subst hb
    subst heq
    exact ⟨a, [], rfl, by simp, hany, splitext_split a [] (by simp) hany⟩
  | succ n ih =>
    intro b a l hlen heq hany
    by_cases hd : '.' ∈ b
    · obtain ⟨x, y, hxy⟩ := List.append_of_mem hd
      subst hxy
      have hlen2 : y.length ≤ n := by
        rw [List.length_append, List.length_cons] at hlen
        omega
      have heq2 : l = (a ++ '.' :: x) ++ '.' :: y := by
        rw [heq]
        simp
      have hany2 : (a ++ '.' :: x).any (fun c => c ≠ '.') = true := by
        rw [List.any_append, hany]
        rfl
      exact ih y (a ++ '.' :: x) l hlen2 heq2 hany2
    · subst heq
      exact ⟨a, b, rfl, hd, hany, splitext_split a b hd hany⟩

theorem splitext_eq_self_of_no_real_dot (l : List Char)
    (h : ¬ ∃ a b, l = a ++ '.' :: b ∧ a.any (fun x => x ≠ '.') = true) :
    splitextL l = (l, []) := by
  unfold splitextL
  cases hgo : splitextGo l.reverse with
  | none => rfl
  | some p =>
    exfalso
    obtain ⟨s1, e1⟩ := p
    obtain ⟨t, ht, _, hany⟩ := splitextGo_shape l.reverse s1 e1 hgo
    have hc := splitextGo_concat l.reverse s1 e1 hgo
    apply h
    refine ⟨s1.reverse, t.reverse, ?_, by simpa using hany⟩
    have h2 := congrArg List.reverse hc
    rw [List.reverse_reverse, List.reverse_append, ht, List.reverse_append] at h2
    simpa using h2.symm

/-! ## Claim theorems: the sanitizer -/

/-- C2 (counterexample): the name `.env` contains a period, yet
`os.path.splitext` assigns it an empty extension — the whole name is the
stem, so `sanitize` turns it into `_env` rather than treating `.env` as an
extension.  This falsifies "the extension is empty exactly when the name
contains no period" and the unconditional split-at-last-period reading. -/
theorem claim_C2_counterexample :
    ('.' ∈ ".env".data) ∧ splitextL ".env".data = (".env".data, []) ∧
      sanitize_filename ".env" "_" = "_env" := by
  decide

/-- C2 (amended): `sanitize` splits the name at the last period provided
some character before that period is not itself a period; the extension then
includes the leading period and its tail is period-free.  Otherwise — no
period at all, or only periods before the last one (e.g. `.env`, `...`) —
the extension is empty and the whole name is the stem.  The replacement
rules are then applied to stem and extension separately. -/
theorem claim_C2 : ∀ s : String,
    ((∃ a b, s.data = a ++ '.' :: b ∧ a.any (fun x => x ≠ '.') = true) →
      ∃ a b, s.data = a ++ '.' :: b ∧ '.' ∉ b ∧ a.any (fun x => x ≠ '.') = true ∧
        splitextL s.data = (a, '.' :: b) ∧
        sanitizeL "_".data s.data = cleanStem "_".data a ++ cleanExt "_".data ('.' :: b)) ∧
    ((¬ ∃ a b, s.data = a ++ '.' :: b ∧ a.any (fun x => x ≠ '.') = true) →
      splitextL s.data = (s.data, []) ∧
      sanitizeL "_".data s.data = cleanStem "_".data s.data) := by
  intro s
  constructor
  · rintro ⟨a, b, heq, hany⟩
    obtain ⟨a2, b2, heq2, hnd2, hany2, hsp⟩ := last_dot_aux b.length b a s.data le_rfl heq hany
    refine ⟨a2, b2, heq2, hnd2, hany2, hsp, ?_⟩
    unfold sanitizeL
    rw [hsp]
  · intro h
    have hsp := splitext_eq_self_of_no_real_dot s.data h
    refine ⟨hsp, ?_⟩
    unfold sanitizeL
    rw [hsp]
    unfold cleanExt
    simp

/-- C2 witness: the amended theorem applied at `report.v1.txt` (split
happens, at the last period) and at `abc` (no period, extension empty). -/
theorem claim_C2_witness :
    (∃ a b, "report.v1.txt".data = a ++ '.' :: b ∧ '.' ∉ b ∧
      a.any (fun x => x ≠ '.') = true ∧
      splitextL "report.v1.txt".data = (a, '.' :: b) ∧
      sanitizeL "_".data "report.v1.txt".data =
        cleanStem "_".data a ++ cleanExt "_".data ('.' :: b)) ∧
    splitextL "abc".data = ("abc".data, []) := by
  constructor
  · exact (claim_C2 "report.v1.txt").1 ⟨"report.v1".data, "txt".data, by decide, by decide⟩
  · refine ((claim_C2 "abc").2 ?_).1
    rintro ⟨a, b, heq, -⟩
    have hm : '.' ∈ "abc".data := by
      rw [heq]
      exact List.mem_append_right a (List.mem_cons_self '.' b)
    revert hm
    decide

theorem allowed_ne_space {c : Char} (h : allowedChar c = true) : c ≠ ' ' := by
  intro he
  subst he
  exact absurd h (by decide)

theorem lastCharIs_false_of_all {l : List Char} {c : Char}
    (h : ∀ x ∈ l, x ≠ c) : lastCharIs l c = false := by
  unfold lastCharIs
  cases hr : l.reverse with
  | nil => rfl
  | cons x t =>
    have hx : x ∈ l := by
      rw [← List.mem_reverse, hr]
      exact List.mem_cons_self x t
    simp [h x hx]

/-- C3 (counterexample): the empty string satisfies every hypothesis of the
claim — all (zero) characters allowed, stem not reserved, no trailing space
or period — yet `is_valid_windows_filename` rejects it, because the
validator regex `[...]+` demands at least one character. -/
theorem claim_C3_counterexample :
    "".data.all allowedChar = true ∧
    reservedNames.contains ((splitextL "".data).1.map pyUpper) = false ∧
    lastCharIs "".data ' ' = false ∧
    lastCharIs "".data '.' = false ∧
    is_valid_windows_filename "" = false := by
  decide

/-- C3 (amended): for every nonempty name whose characters are all ASCII
letters, digits, underscores, hyphens or periods, whose uppercased stem is
not reserved, and which does not end in a space or a period, the validator
accepts. -/
theorem claim_C3 : ∀ s : String, s.data ≠ [] →
    s.data.all allowedChar = true →
    reservedNames.contains ((splitextL s.data).1.map pyUpper) = false →
    lastCharIs s.data ' ' = false →
    lastCharIs s.data '.' = false →
    is_valid_windows_filename s = true := by
  intro s hne hall hres hsp hdot
  unfold is_valid_windows_filename
  rw [hres]
  have hend : endsWithSpaceDot s.data = false := by
    unfold endsWithSpaceDot
    rw [hsp, hdot]
    rfl
  rw [hend]
  have hpat : matchesAllowedPattern s.data = true := by
    unfold matchesAllowedPattern
    have hie : s.data.isEmpty = false := by
      cases hc : s.data with
      | nil => exact absurd hc hne
      | cons a t => rfl
    rw [hie, hall]
    rfl
  rw [hpat]
  rfl

/-- C3 witness: the amended theorem applied at `notes-1.txt`. -/
theorem claim_C3_witness : is_valid_windows_filename "notes-1.txt" = true :=
  claim_C3 "notes-1.txt" (by decide) (by decide) (by decide) (by decide) (by decide)

/-- C8: `sanitize_filename` is total by construction in this embedding (a
Lean function), and for every input string and every replacement string it
returns a nonempty string — an empty stem is replaced by the literal
`unnamed_file` before the extension is reattached. -/
theorem claim_C8 : ∀ (s rep : String), sanitize_filename s rep ≠ "" := by
  intro s rep h
  have h2 : sanitizeL rep.data s.data = [] := congrArg String.data h
  exact sanitizeL_ne_nil rep.data s.data h2

/-- C9: with the default replacement `'_'`, `sanitize_filename` is
idempotent: sanitizing an already-sanitized name changes nothing. -/
theorem claim_C9 : ∀ s : String,
    sanitize_filename (sanitize_filename s "_") "_" = sanitize_filename s "_" := by
  intro s
  show (⟨sanitizeL "_".data (sanitizeL "_".data s.data)⟩ : String) = ⟨sanitizeL "_".data s.data⟩
  exact congrArg String.mk (sanitizeL_idem s.data)

/-! ## Decimal rendering: basic facts -/

theorem natToDigitsAux_zero : ∀ f, natToDigitsAux f 0 = [] := by
  intro f
  cases f with
  | zero => rfl
  | succ f => simp [natToDigitsAux]

theorem natToDigitsAux_congr : ∀ (n f1 f2 : Nat), n ≤ f1 → n ≤ f2 →
    natToDigitsAux f1 n = natToDigitsAux f2 n := by
  intro n
  induction n using Nat.strong_induction_on with
  | _ n ih =>
    intro f1 f2 h1 h2
    by_cases hz : n = 0
    · subst hz
      rw [natToDigitsAux_zero, natToDigitsAux_zero]
    · obtain ⟨g1, rfl⟩ : ∃ g, f1 = g + 1 := ⟨f1 - 1, by omega⟩
      obtain ⟨g2, rfl⟩ : ∃ g, f2 = g + 1 := ⟨f2 - 1, by omega⟩
      show (if n = 0 then [] else n % 10 :: natToDigitsAux g1 (n / 10)) =
        (if n = 0 then [] else n % 10 :: natToDigitsAux g2 (n / 10))
      rw [if_neg hz, if_neg hz]
      have hlt : n / 10 < n := Nat.div_lt_self (by omega) (by omega)
      rw [ih (n / 10) hlt g1 g2 (by omega) (by omega)]

theorem natDigits_pos (n : Nat) (h : n ≠ 0) :
    natDigits n = n % 10 :: natDigits (n / 10) := by
  unfold natDigits
  obtain ⟨m, rfl⟩ : ∃ m, n = m + 1 := ⟨n - 1, by omega⟩
  show (if m + 1 = 0 then [] else (m + 1) % 10 :: natToDigitsAux m ((m + 1) / 10)) = _
  rw [if_neg h]
  have hle : (m + 1) / 10 ≤ m := by
    have := Nat.div_lt_self (show 0 < m + 1 by omega) (show 1 < 10 by omega)
    omega
  rw [natToDigitsAux_congr ((m + 1) / 10) m ((m + 1) / 10) hle le_rfl]

theorem undigits_natDigits : ∀ n, undigits (natDigits n) = n := by
  intro n
  induction n using Nat.strong_induction_on with
  | _ n ih =>
    by_cases hz : n = 0
    · subst hz
      rfl
    · rw [natDigits_pos n hz]
      unfold undigits
      have hlt : n / 10 < n := Nat.div_lt_self (by omega) (by omega)
      rw [ih (n / 10) hlt]
      omega

theorem natDigits_lt_ten : ∀ n, ∀ d ∈ natDigits n, d < 10 := by
  intro n
  induction n using Nat.strong_induction_on with
  | _ n ih =>
    intro d hd
    by_cases hz : n = 0
    · subst hz
      unfold natDigits at hd
      simp [natToDigitsAux_zero] at hd
    · rw [natDigits_pos n hz] at hd
      rcases List.mem_cons.mp hd with h | h
      · subst h
        exact Nat.mod_lt n (by omega)
      · exact ih (n / 10) (Nat.div_lt_self (by omega) (by omega)) d h

theorem digitChar_inj {a b : Nat} (ha : a < 10) (hb : b < 10)
    (h : digitChar a = digitChar b) : a = b := by
  interval_cases a <;> interval_cases b <;> first | rfl | (exact absurd h (by decide))

theorem digitChar_is_digit {d : Nat} (h : d < 10) : isAsciiDigit (digitChar d) = true := by
  interval_cases d <;> decide

theorem map_digitChar_inj : ∀ xs ys : List Nat, (∀ d ∈ xs, d < 10) → (∀ d ∈ ys, d < 10) →
    xs.map digitChar = ys.map digitChar → xs = ys := by
  intro xs
  induction xs with
  | nil =>
    intro ys _ _ h
    cases ys with
    | nil => rfl
    | cons y t => simp at h
  | cons x t ih =>
    intro ys hx hy h
    cases ys with
    | nil => simp at h
    | cons y u =>
      rw [List.map_cons, List.map_cons] at h
      injection h with h1 h2
      have hxy := digitChar_inj (hx x (List.mem_cons_self x t)) (hy y (List.mem_cons_self y u)) h1
      rw [hxy, ih u (fun d hd => hx d (List.mem_cons_of_mem _ hd))
        (fun d hd => hy d (List.mem_cons_of_mem _ hd)) h2]

theorem natDigits_ne_nil {n : Nat} (h : n ≠ 0) : natDigits n ≠ [] := by
  rw [natDigits_pos n h]
  simp

theorem natReprL_inj : ∀ m n : Nat, natReprL m = natReprL n → m = n := by
  have key : ∀ n, n ≠ 0 → natReprL n = ['0'] → False := by
    intro n hn h
    unfold natReprL at h
    rw [if_neg hn] at h
    have h2 := congrArg List.reverse h
    rw [List.reverse_reverse] at h2
    cases hd : natDigits n with
    | nil => exact natDigits_ne_nil hn hd
    | cons d t =>
      rw [hd, List.map_cons] at h2
      have h3 : (['0'].reverse : List Char) = ['0'] := rfl
      rw [h3] at h2
      injection h2 with h4 h5
      have hdlt : d < 10 := natDigits_lt_ten n d (by rw [hd]; exact List.mem_cons_self d t)
      have hd0 : d = 0 := digitChar_inj hdlt (by omega) (h4.trans (by decide))
      have ht : t = [] := by
        cases t with
        | nil => rfl
        | cons a u => simp at h5
      have : undigits (natDigits n) = n := undigits_natDigits n
      rw [hd, hd0, ht] at this
      exact hn (by simpa [undigits] using this.symm)
  intro m n h
  by_cases hm : m = 0 <;> by_cases hn : n = 0
  · omega
  · subst hm
    unfold natReprL at h
    rw [if_pos rfl] at h
    exact absurd (key n hn h.symm) (fun f => f)
  · subst hn
    unfold natReprL at h
    rw [if_pos rfl] at h
    exact absurd (key m hm h) (fun f => f)
  · unfold natReprL at h
    rw [if_neg hm, if_neg hn] at h
    have h2 := List.reverse_injective h
    have h3 := map_digitChar_inj (natDigits m) (natDigits n)
      (natDigits_lt_ten m) (natDigits_lt_ten n) h2
    have h4 := undigits_natDigits m
    rw [h3, undigits_natDigits n] at h4
    omega

theorem natReprL_ne_nil (n : Nat) : natReprL n ≠ [] := by
  unfold natReprL
  by_cases hz : n = 0
  · rw [if_pos hz]
    simp
  · rw [if_neg hz]
    intro h
    rw [List.reverse_eq_nil_iff, List.map_eq_nil_iff] at h
    exact natDigits_ne_nil hz h

theorem natReprL_digits : ∀ n, ∀ c ∈ natReprL n, isAsciiDigit c = true := by
  intro n c hc
  unfold natReprL at hc
  by_cases hz : n = 0
  · rw [if_pos hz] at hc
    rw [List.mem_singleton] at hc
    subst hc
    decide
  · rw [if_neg hz] at hc
    rw [List.mem_reverse, List.mem_map] at hc
    obtain ⟨d, hd, hdc⟩ := hc
    subst hdc
    exact digitChar_is_digit (natDigits_lt_ten n d hd)

/-! ## Collision resolution: the numeric suffix is injective and a free
suffix always exists within the fuel budget -/

theorem fileSuffix_inj (cand : String) : ∀ m n, fileSuffix cand m = fileSuffix cand n → m = n := by
  intro m n h
  unfold fileSuffix at h
  have h2 : (splitextL cand.data).1 ++ '_' :: (natReprL m ++ (splitextL cand.data).2) =
      (splitextL cand.data).1 ++ '_' :: (natReprL n ++ (splitextL cand.data).2) :=
    congrArg String.data h
  have h3 := List.append_cancel_left h2
  injection h3 with _ h4
  have h5 := List.append_cancel_right h4
  exact natReprL_inj m n h5

theorem dirSuffix_inj (cand : String) : ∀ m n, dirSuffix cand m = dirSuffix cand n → m = n := by
  intro m n h
  unfold dirSuffix at h
  have h2 : cand.data ++ '_' :: natReprL m = cand.data ++ '_' :: natReprL n :=
    congrArg String.data h
  have h3 := List.append_cancel_left h2
  injection h3 with _ h4
  exact natReprL_inj m n h4

theorem applySuffix_inj (k : EKind) (cand : String) :
    ∀ m n, applySuffix k cand m = applySuffix k cand n → m = n := by
  cases k with
  | file => exact fileSuffix_inj cand
  | dir => exact dirSuffix_inj cand

theorem existsName_true_iff {es : List Entry} {n : String} :
    existsName es n = true ↔ n ∈ namesOf es := by
  unfold existsName namesOf
  rw [List.any_eq_true]
  constructor
  · rintro ⟨e, he, heq⟩
    rw [List.mem_map]
    exact ⟨e, he, by simpa using heq⟩
  · intro h
    rw [List.mem_map] at h
    obtain ⟨e, he, heq⟩ := h
    exact ⟨e, he, by simpa using heq⟩

theorem existsName_false_iff {es : List Entry} {n : String} :
    existsName es n = false ↔ n ∉ namesOf es := by
  rw [← existsName_true_iff]
  cases h : existsName es n <;> simp

/-- Pigeonhole for the collision loop: among the suffixes `1 .. L+1`, where
`L` is the number of entries in the directory, some candidate name is free. -/
theorem exists_free_suffix (occ : List String) (mkN : Nat → String)
    (hinj : ∀ m n, mkN m = mkN n → m = n) :
    ∃ j, 1 ≤ j ∧ j ≤ occ.length + 1 ∧ mkN j ∉ occ := by
  by_contra hcon
  push_neg at hcon
  have hsub : ∀ x ∈ (List.range (occ.length + 1)).map (fun i => mkN (i + 1)), x ∈ occ := by
    intro x hx
    rw [List.mem_map] at hx
    obtain ⟨i, hi, hxe⟩ := hx
    rw [List.mem_range] at hi
    subst hxe
    exact hcon (i + 1) (by omega) (by omega)
  have hnd : ((List.range (occ.length + 1)).map (fun i => mkN (i + 1))).Nodup := by
    refine List.Nodup.map ?_ (List.nodup_range _)
    intro a b hab
    have := hinj (a + 1) (b + 1) hab
    omega
  have hcard1 : ((List.range (occ.length + 1)).map (fun i => mkN (i + 1))).toFinset.card =
      occ.length + 1 := by
    rw [List.toFinset_card_of_nodup hnd]
    simp
  have hsub2 : ((List.range (occ.length + 1)).map (fun i => mkN (i + 1))).toFinset ⊆
      occ.toFinset := by
    intro x hx
    rw [List.mem_toFinset] at hx ⊢
    exact hsub x hx
  have hle := Finset.card_le_card hsub2
  have hle2 := occ.toFinset_card_le
  omega

theorem resolveLoop_of_free (es : List Entry) (mkN : Nat → String) :
    ∀ (fuel ctr : Nat) (nm : String), existsName es nm = false →
      resolveLoop es mkN nm ctr fuel = nm := by
  intro fuel ctr nm h
  cases fuel with
  | zero => rfl
  | succ f =>
    unfold resolveLoop
    rw [h]
    simp

/-- The collision loop returns `mkN j` for the least free `j` at or past the
current counter, given enough fuel, when the current proposal is taken. -/
theorem resolveLoop_least (es : List Entry) (mkN : Nat → String) :
    ∀ (fuel ctr : Nat) (nm : String) (j : Nat), ctr ≤ j →
      existsName es (mkN j) = false →
      (∀ i, ctr ≤ i → i < j → existsName es (mkN i) = true) →
      existsName es nm = true →
      j - ctr < fuel →
      resolveLoop es mkN nm ctr fuel = mkN j := by
  intro fuel
  induction fuel with
  | zero =>
    intro ctr nm j h1 h2 h3 h4 h5
    omega
  | succ f ih =>
    intro ctr nm j h1 h2 h3 h4 h5
    unfold resolveLoop
    rw [h4]
    simp only [if_true]
    by_cases hj : j = ctr
    · subst hj
      exact resolveLoop_of_free es mkN f (j + 1) (mkN j) h2
    · exact ih (ctr + 1) (mkN ctr) j (by omega) h2
        (fun i hi1 hi2 => h3 i (by omega) hi2) (h3 ctr le_rfl (by omega)) (by omega)

theorem resolveLoop_shape (es : List Entry) (mkN : Nat → String) :
    ∀ (fuel ctr : Nat) (nm : String),
      resolveLoop es mkN nm ctr fuel = nm ∨
        ∃ j, ctr ≤ j ∧ resolveLoop es mkN nm ctr fuel = mkN j := by
  intro fuel
  induction fuel with
  | zero => intro ctr nm; exact Or.inl rfl
  | succ f ih =>
    intro ctr nm
    unfold resolveLoop
    by_cases h : existsName es nm = true
    · rw [h]
      simp only [if_true]
      rcases ih (ctr + 1) (mkN ctr) with h1 | ⟨j, hj1, hj2⟩
      · exact Or.inr ⟨ctr, le_rfl, h1⟩
      · exact Or.inr ⟨j, by omega, hj2⟩
    · rw [Bool.not_eq_true] at h
      rw [h]
      simp

/-- Full specification of one collision resolution with the fuel the source
model passes: the result is free; it is the candidate itself or a suffixed
form; and when the candidate collides, it is a suffixed form, distinct from
every occupied name. -/
theorem resolveAt_spec (es : List Entry) (mkN : Nat → String) (cand : String)
    (hinj : ∀ m n, mkN m = mkN n → m = n) :
    existsName es (resolveLoop es mkN cand 1 (es.length + 1)) = false ∧
    (resolveLoop es mkN cand 1 (es.length + 1) = cand ∨
      ∃ n, 1 ≤ n ∧ resolveLoop es mkN cand 1 (es.length + 1) = mkN n) := by
  by_cases hc : existsName es cand = true
  · have hlen : (namesOf es).length = es.length := List.length_map es ename
    obtain ⟨j0, hj1, hj2, hj3⟩ := exists_free_suffix (namesOf es) mkN hinj
    have hex : ∃ n, 1 ≤ n ∧ existsName es (mkN n) = false :=
      ⟨j0, hj1, existsName_false_iff.mpr hj3⟩
    have hP := Nat.find_spec hex
    have hNle : Nat.find hex ≤ j0 := Nat.find_min' hex ⟨hj1, existsName_false_iff.mpr hj3⟩
    have hloop := resolveLoop_least es mkN (es.length + 1) 1 cand (Nat.find hex) hP.1 hP.2
      (fun i hi1 hi2 => by
        have hmin := Nat.find_min hex hi2
        rw [not_and] at hmin
        have := hmin hi1
        cases hb : existsName es (mkN i) with
        | false => exact absurd hb this
        | true => rfl)
      hc (by omega)
    rw [hloop]
    exact ⟨hP.2, Or.inr ⟨Nat.find hex, hP.1, rfl⟩⟩
  · rw [Bool.not_eq_true] at hc
    rw [resolveLoop_of_free es mkN (es.length + 1) 1 cand hc]
    exact ⟨hc, Or.inl rfl⟩

theorem resolveK_spec (k : EKind) (es : List Entry) (cand : String) :
    existsName es (resolveK k es cand) = false ∧
    (resolveK k es cand = cand ∨
      ∃ n, 1 ≤ n ∧ resolveK k es cand = applySuffix k cand n) := by
  cases k with
  | file => exact resolveAt_spec es (fileSuffix cand) cand (fileSuffix_inj cand)
  | dir => exact resolveAt_spec es (dirSuffix cand) cand (dirSuffix_inj cand)

theorem resolve_least_general (es : List Entry) (mkN : Nat → String) (cand : String) (N : Nat)
    (hinj : ∀ m n, mkN m = mkN n → m = n)
    (hc : existsName es cand = true) (hN1 : 1 ≤ N)
    (hfree : existsName es (mkN N) = false)
    (hocc : ∀ M, M < N → 1 ≤ M → existsName es (mkN M) = true) :
    resolveLoop es mkN cand 1 (es.length + 1) = mkN N := by
  obtain ⟨j0, hj1, hj2, hj3⟩ := exists_free_suffix (namesOf es) mkN hinj
  have hj3b : existsName es (mkN j0) = false := existsName_false_iff.mpr hj3
  have hNle : N ≤ j0 := by
    by_contra hgt
    rw [hocc j0 (by omega) hj1] at hj3b
    cases hj3b
  have hlen : (namesOf es).length = es.length := List.length_map es ename
  exact resolveLoop_least es mkN (es.length + 1) 1 cand N hN1 hfree
    (fun i hi1 hi2 => hocc i hi2 hi1) hc (by omega)

/-! ## Claim theorems: collision resolution -/

/-- C5: collision resolution returns the first unoccupied candidate.  When
the sanitized candidate's path is taken, the final name carries the suffix
`_N` for the least free `N ≥ 1` — inserted before the extension for files,
appended to the whole name for directories; and concretely, with `a.txt`
and `a_1.txt` both present, a colliding candidate `a.txt` resolves to
`a_2.txt`. -/
theorem claim_C5 :
    (∀ (es : List Entry) (cand : String) (N : Nat),
      existsName es cand = true → 1 ≤ N →
      existsName es (fileSuffix cand N) = false →
      (∀ M, M < N → 1 ≤ M → existsName es (fileSuffix cand M) = true) →
      resolveFile es cand = fileSuffix cand N) ∧
    (∀ (es : List Entry) (cand : String) (N : Nat),
      existsName es cand = true → 1 ≤ N →
      existsName es (dirSuffix cand N) = false →
      (∀ M, M < N → 1 ≤ M → existsName es (dirSuffix cand M) = true) →
      resolveDir es cand = dirSuffix cand N) ∧
    resolveFile [Entry.file "a.txt", Entry.file "a_1.txt"] "a.txt" = "a_2.txt" := by
  refine ⟨?_, ?_, by decide⟩
  · intro es cand N hc hN1 hfree hocc
    exact resolve_least_general es (fileSuffix cand) cand N (fileSuffix_inj cand) hc hN1 hfree hocc
  · intro es cand N hc hN1 hfree hocc
    exact resolve_least_general es (dirSuffix cand) cand N (dirSuffix_inj cand) hc hN1 hfree hocc

/-- C5 witness: the least-suffix clauses applied at concrete directories
where the candidate and its first suffix are both taken. -/
theorem claim_C5_witness :
    resolveFile [Entry.file "b.txt", Entry.file "b_1.txt"] "b.txt" = "b_2.txt" ∧
    resolveDir [Entry.dir "d" [], Entry.dir "d_1" []] "d" = "d_2" := by
  constructor
  · exact claim_C5.1 [Entry.file "b.txt", Entry.file "b_1.txt"] "b.txt" 2
      (by decide) (by decide) (by decide) (by decide)
  · exact claim_C5.2.1 [Entry.dir "d" [], Entry.dir "d_1" []] "d" 2
      (by decide) (by decide) (by decide) (by decide)

/-- C10: when an invalid name is its own sanitized candidate (e.g. the
reserved `CON.txt`), the candidate path coincides with the entry's own
path, so the collision loop always fires: the final name is a numerically
suffixed one and differs from the original, and concretely `CON.txt` is
renamed to `CON_1.txt` rather than left in place. -/
theorem claim_C10 :
    (∀ (es : List Entry) (old : String), existsName es old = true → sanitizeS old = old →
      resolveFile es (sanitizeS old) ≠ old ∧
      ∃ n, 1 ≤ n ∧ resolveFile es (sanitizeS old) = fileSuffix old n) ∧
    is_valid_windows_filename "CON.txt" = false ∧
    sanitizeS "CON.txt" = "CON.txt" ∧
    namesOf (processOne .file orcOk [] [Entry.file "CON.txt"] "CON.txt").1 = ["CON_1.txt"] ∧
    (processOne .file orcOk [] [Entry.file "CON.txt"] "CON.txt").2 =
      [⟨EKind.file, ["CON.txt"], ["CON_1.txt"], true⟩] := by
  refine ⟨?_, by decide, by decide, by decide, by decide⟩
  intro es old hc hsan
  rw [hsan]
  have hspec := resolveK_spec .file es old
  have hfree : existsName es (resolveFile es old) = false := hspec.1
  have hne : resolveFile es old ≠ old := by
    intro heq
    rw [heq, hc] at hfree
    cases hfree
  refine ⟨hne, ?_⟩
  rcases hspec.2 with heq | ⟨n, hn1, hn2⟩
  · exact absurd heq hne
  · exact ⟨n, hn1, hn2⟩

/-- C10 witness: the general clause applied at a directory containing only
`CON.txt`. -/
theorem claim_C10_witness :
    resolveFile [Entry.file "CON.txt"] (sanitizeS "CON.txt") ≠ "CON.txt" ∧
    ∃ n, 1 ≤ n ∧ resolveFile [Entry.file "CON.txt"] (sanitizeS "CON.txt") =
      fileSuffix "CON.txt" n :=
  claim_C10.1 [Entry.file "CON.txt"] "CON.txt" (by decide) (by decide)

/-! ## Claim theorems: the entry point -/

/-- C4 (counterexample): when the supplied path does not exist, the run
logs the start message and the error, skips the traversal — but `main` then
still logs the completion message, contradicting "terminates early without
logging the completion message". -/
theorem claim_C4_counterexample :
    pyStrip "x" ≠ "" ∧
    main_run orcOk 1 "x" none = [.procStart "x", .errNotExist, .complete] ∧
    LogMsg.complete ∈ main_run orcOk 1 "x" none := by
  decide

/-- C4 (amended): an empty (stripped) input logs only the no-directory
error — no start message, no traversal, no completion message.  A
non-existent path logs the start message, then the does-not-exist error,
performs no traversal, and still logs the completion message.  An existing
path logs the start message, the traversal's audit events, and the
completion message. -/
theorem claim_C4 : ∀ (orc : Oracle) (fuel : Nat) (raw : String) (fsOpt : Option (List Entry)),
    (pyStrip raw = "" → main_run orc fuel raw fsOpt = [.errNoDir]) ∧
    (pyStrip raw ≠ "" → fsOpt = none →
      main_run orc fuel raw fsOpt = [.procStart (pyStrip raw), .errNotExist, .complete]) ∧
    (∀ es, pyStrip raw ≠ "" → fsOpt = some es →
      main_run orc fuel raw fsOpt =
        .procStart (pyStrip raw) ::
          ((procChildren orc fuel [pyStrip raw] es).2.map LogMsg.ev ++ [.complete])) := by
  intro orc fuel raw fsOpt
  refine ⟨?_, ?_, ?_⟩
  · intro h
    unfold main_run
    rw [if_pos h]
  · intro h hn
    subst hn
    unfold main_run rename_files_in_directory
    rw [if_neg h]
    rfl
  · intro es h hs
    subst hs
    unfold main_run rename_files_in_directory
    rw [if_neg h]
    rfl

/-- C4 witness: the amended theorem applied at a blank input (including a
no-break-space-only one, which Python `str.strip()` also empties), a
missing directory, and an existing directory. -/
theorem claim_C4_witness :
    main_run orcOk 1 "  " (some [Entry.file "ok.txt"]) = [.errNoDir] ∧
    main_run orcOk 1 "\xa0" none = [.errNoDir] ∧
    main_run orcOk 1 " t " none = [.procStart "t", .errNotExist, .complete] ∧
    main_run orcOk 1 "t" (some [Entry.file "ok.txt"]) = [.procStart "t", .complete] := by
  refine ⟨?_, ?_, ?_, ?_⟩
  · exact (claim_C4 orcOk 1 "  " (some [Entry.file "ok.txt"])).1 (by decide)
  · exact (claim_C4 orcOk 1 "\xa0" none).1 (by decide)
  · exact (claim_C4 orcOk 1 " t " none).2.1 (by decide) rfl
  · have h := (claim_C4 orcOk 1 "t" (some [Entry.file "ok.txt"])).2.2 [Entry.file "ok.txt"]
      (by decide) rfl
    rw [h]
    decide

/-! ## Trace lemmas -/

theorem skel_append (a b : List Event) : skel (a ++ b) = skel a ++ skel b :=
  List.map_append _ a b

theorem skel_flatten : ∀ ls : List (List Event), skel ls.flatten = (ls.map skel).flatten := by
  intro ls
  induction ls with
  | nil => rfl
  | cons x t ih =>
    rw [List.flatten_cons, skel_append, ih, List.map_cons, List.flatten_cons]

/-- The skeleton of one name's processing: one entry when the name is
invalid, none when it is valid — independently of the oracle and of the
directory contents. -/
theorem processOne_skel (k : EKind) (orc : Oracle) (pre : List String) (es : List Entry)
    (n : String) :
    skel (processOne k orc pre es n).2 =
      (if is_valid_windows_filename n then [] else [(k, pre ++ [n])]) := by
  unfold processOne
  by_cases hv : is_valid_windows_filename n = true
  · simp [hv, skel]
  · rw [Bool.not_eq_true] at hv
    rw [hv]
    simp only [Bool.false_eq_true, if_false]
    split <;> rfl

theorem processNames_skel (k : EKind) (orc : Oracle) (pre : List String) :
    ∀ (ns : List String) (es : List Entry),
      skel (processNames k orc pre es ns).2 =
        ns.flatMap (fun n =>
          if is_valid_windows_filename n then [] else [(k, pre ++ [n])]) := by
  intro ns
  induction ns with
  | nil => intro es; rfl
  | cons n t ih =>
    intro es
    show skel ((processOne k orc pre es n).2 ++ _) = _
    rw [skel_append, processOne_skel, ih, List.flatMap_cons]

theorem recurseWith_snd (g : String → List Entry → List Entry × List Event) (es : List Entry) :
    (recurseWith g es).map Prod.snd = es.map (fun e =>
      match e with
      | Entry.file _ => []
      | Entry.dir n cs => (g n cs).2) := by
  unfold recurseWith
  rw [List.map_map]
  refine List.map_congr_left ?_
  intro e _
  cases e <;> rfl

/-- C7's core: the trace skeleton — which entries get a rename attempt, in
which order, at which old paths — does not depend on the failure oracle. -/
theorem procChildren_skel (orc orc2 : Oracle) :
    ∀ (fuel : Nat) (pre : List String) (es : List Entry),
      skel (procChildren orc fuel pre es).2 = skel (procChildren orc2 fuel pre es).2 := by
  intro fuel
  induction fuel with
  | zero => intro pre es; rfl
  | succ f ih =>
    intro pre es
    show skel (levelPhase orc pre _ _ _).2 = skel (levelPhase orc2 pre _ _ _).2
    unfold levelPhase
    simp only [skel_append]
    rw [processNames_skel, processNames_skel, processNames_skel, processNames_skel]
    rw [recurseWith_snd, recurseWith_snd, skel_flatten, skel_flatten]
    rw [List.map_map, List.map_map]
    have : es.map (skel ∘ fun e =>
        match e with
        | Entry.file _ => []
        | Entry.dir n cs => (procChildren orc f (pre ++ [n]) cs).2) =
      es.map (skel ∘ fun e =>
        match e with
        | Entry.file _ => []
        | Entry.dir n cs => (procChildren orc2 f (pre ++ [n]) cs).2) := by
      refine List.map_congr_left ?_
      intro e _
      cases e with
      | file n => rfl
      | dir n cs => exact ih (pre ++ [n]) cs
    rw [this]

theorem processOne_events (k : EKind) (orc : Oracle) (pre : List String) (es : List Entry)
    (n : String) :
    ∀ ev ∈ (processOne k orc pre es n).2,
      ev.kind = k ∧ ev.oldPath = pre ++ [n] ∧ ev.ok = orc ev.oldPath ev.newPath := by
  intro ev hev
  simp only [processOne] at hev
  split at hev
  · simp at hev
  · split at hev
    case isTrue h =>
      rw [List.mem_singleton] at hev
      subst hev
      exact ⟨rfl, rfl, h.symm⟩
    case isFalse h =>
      rw [List.mem_singleton] at hev
      subst hev
      refine ⟨rfl, rfl, ?_⟩
      simp only [Bool.not_eq_true] at h
      exact h.symm

theorem processNames_events (k : EKind) (orc : Oracle) (pre : List String) :
    ∀ (ns : List String) (es : List Entry), ∀ ev ∈ (processNames k orc pre es ns).2,
      ev.kind = k ∧ (∃ n ∈ ns, ev.oldPath = pre ++ [n]) ∧
        ev.ok = orc ev.oldPath ev.newPath := by
  intro ns
  induction ns with
  | nil => intro es ev hev; simp [processNames] at hev
  | cons n t ih =>
    intro es ev hev
    rcases List.mem_append.mp hev with h | h
    · obtain ⟨h1, h2, h3⟩ := processOne_events k orc pre es n ev h
      exact ⟨h1, ⟨n, List.mem_cons_self n t, h2⟩, h3⟩
    · obtain ⟨h1, ⟨m, hm, h2⟩, h3⟩ := ih (processOne k orc pre es n).1 ev h
      exact ⟨h1, ⟨m, List.mem_cons_of_mem n hm, h2⟩, h3⟩

theorem procChildren_events (orc : Oracle) :
    ∀ (fuel : Nat) (pre : List String) (es : List Entry),
      ∀ ev ∈ (procChildren orc fuel pre es).2,
        pre.length + 1 ≤ ev.oldPath.length ∧ ev.ok = orc ev.oldPath ev.newPath := by
  intro fuel
  induction fuel with
  | zero => intro pre es ev hev; simp [procChildren] at hev
  | succ f ih =>
    intro pre es ev hev
    simp only [procChildren, levelPhase] at hev
    rcases List.mem_append.mp hev with h | h
    · rcases List.mem_append.mp h with h2 | h2
      · rw [recurseWith_snd] at h2
        rw [List.mem_flatten] at h2
        obtain ⟨l, hl, hev2⟩ := h2
        rw [List.mem_map] at hl
        obtain ⟨e, _, he⟩ := hl
        cases e with
        | file m =>
          rw [← he] at hev2
          simp at hev2
        | dir m cs =>
          rw [← he] at hev2
          obtain ⟨hlen, hok⟩ := ih (pre ++ [m]) cs ev hev2
          rw [List.length_append, List.length_singleton] at hlen
          exact ⟨by omega, hok⟩
      · obtain ⟨_, ⟨m, _, h3⟩, h4⟩ := processNames_events .file orc pre (fileNamesOf es) _ ev h2
        refine ⟨?_, h4⟩
        rw [h3, List.length_append, List.length_singleton]
    · obtain ⟨_, ⟨m, _, h3⟩, h4⟩ := processNames_events .dir orc pre (dirNamesOf es) _ ev h
      refine ⟨?_, h4⟩
      rw [h3, List.length_append, List.length_singleton]

/-! ## Claim theorems: traversal order and failure recovery -/

/-- C6: the traversal is bottom-up.  For any directory level, the audit
trace decomposes as (events of the subtrees) ++ (this level's file renames)
++ (this level's directory renames): every entry inside a subdirectory is
processed, under its old parent path, before that subdirectory's own name
(an event of the third block, at this level) is evaluated, and files at a
level come before the directories of that level.  Concretely, in
`My Folder/Sub File.txt` the file is renamed first, its old and new paths
showing the old parent name, and only then the parent directory. -/
theorem claim_C6 :
    (∀ (orc : Oracle) (fuel : Nat) (pre : List String) (es : List Entry), ∃ t1 t2 t3,
      (procChildren orc (fuel + 1) pre es).2 = t1 ++ t2 ++ t3 ∧
      (∀ ev ∈ t1, pre.length + 2 ≤ ev.oldPath.length) ∧
      (∀ ev ∈ t2, ev.kind = .file ∧ ∃ n ∈ fileNamesOf es, ev.oldPath = pre ++ [n]) ∧
      (∀ ev ∈ t3, ev.kind = .dir ∧ ∃ n ∈ dirNamesOf es, ev.oldPath = pre ++ [n])) ∧
    (procChildren orcOk 2 [] [Entry.dir "My Folder" [Entry.file "Sub File.txt"]]).2 =
      [⟨.file, ["My Folder", "Sub File.txt"], ["My Folder", "Sub_File.txt"], true⟩,
       ⟨.dir, ["My Folder"], ["My_Folder"], true⟩] := by
  refine ⟨?_, by decide⟩
  intro orc fuel pre es
  refine ⟨((recurseWith (fun n cs => procChildren orc fuel (pre ++ [n]) cs) es).map
      Prod.snd).flatten,
    (processNames .file orc pre
      ((recurseWith (fun n cs => procChildren orc fuel (pre ++ [n]) cs) es).map
        Prod.fst) (fileNamesOf es)).2,
    (processNames .dir orc pre
      (processNames .file orc pre
        ((recurseWith (fun n cs => procChildren orc fuel (pre ++ [n]) cs) es).map
          Prod.fst) (fileNamesOf es)).1 (dirNamesOf es)).2,
    rfl, ?_, ?_, ?_⟩
  · intro ev hev
    rw [recurseWith_snd] at hev
    rw [List.mem_flatten] at hev
    obtain ⟨l, hl, hev2⟩ := hev
    rw [List.mem_map] at hl
    obtain ⟨e, _, he⟩ := hl
    cases e with
    | file m =>
      rw [← he] at hev2
      simp at hev2
    | dir m cs =>
      rw [← he] at hev2
      obtain ⟨hlen, _⟩ := procChildren_events orc fuel (pre ++ [m]) cs ev hev2
      rw [List.length_append, List.length_singleton] at hlen
      omega
  · intro ev hev
    obtain ⟨h1, h2, _⟩ := processNames_events .file orc pre (fileNamesOf es) _ ev hev
    exact ⟨h1, h2⟩
  · intro ev hev
    obtain ⟨h1, h2, _⟩ := processNames_events .dir orc pre (dirNamesOf es) _ ev hev
    exact ⟨h1, h2⟩

/-- C6 witness: the decomposition instantiated at a nested directory. -/
theorem claim_C6_witness :
    ∃ t1 t2 t3,
      (procChildren orcOk 2 [] [Entry.dir "My Folder" [Entry.file "Sub File.txt"]]).2 =
        t1 ++ t2 ++ t3 ∧
      (∀ ev ∈ t1, 2 ≤ ev.oldPath.length) ∧
      (∀ ev ∈ t2, ev.kind = .file ∧
        ∃ n ∈ fileNamesOf [Entry.dir "My Folder" [Entry.file "Sub File.txt"]],
          ev.oldPath = [n]) ∧
      (∀ ev ∈ t3, ev.kind = .dir ∧
        ∃ n ∈ dirNamesOf [Entry.dir "My Folder" [Entry.file "Sub File.txt"]],
          ev.oldPath = [n]) := by
  obtain ⟨t1, t2, t3, h1, h2, h3, h4⟩ :=
    claim_C6.1 orcOk 1 [] [Entry.dir "My Folder" [Entry.file "Sub File.txt"]]
  exact ⟨t1, t2, t3, h1, fun ev hev => h2 ev hev,
    fun ev hev => by simpa using h3 ev hev,
    fun ev hev => by simpa using h4 ev hev⟩

/-- C7: a rename failure is recovered locally.  Under any failure oracle the
trace skeleton — which entries are attempted, in which order, at which old
paths — is identical to the all-success run, so no per-entry failure stops
siblings or ancestors from being processed; every event records the old
path, the attempted new path, and whether the underlying rename succeeded.
Concretely, failing the rename of `a b.txt` still logs that failure (old
and attempted new path, marked failed) and the sibling `c d.txt` is still
renamed. -/
theorem claim_C7 :
    (∀ (orc : Oracle) (fuel : Nat) (pre : List String) (es : List Entry),
      skel (procChildren orc fuel pre es).2 = skel (procChildren orcOk fuel pre es).2 ∧
      ∀ ev ∈ (procChildren orc fuel pre es).2, ev.ok = orc ev.oldPath ev.newPath) ∧
    (procChildren (orcFailAt ["a b.txt"]) 1 [] [Entry.file "a b.txt", Entry.file "c d.txt"]).2 =
      [⟨.file, ["a b.txt"], ["a_b.txt"], false⟩, ⟨.file, ["c d.txt"], ["c_d.txt"], true⟩] ∧
    namesOf (procChildren (orcFailAt ["a b.txt"]) 1 []
      [Entry.file "a b.txt", Entry.file "c d.txt"]).1 = ["a b.txt", "c_d.txt"] := by
  refine ⟨?_, by decide, by decide⟩
  intro orc fuel pre es
  exact ⟨procChildren_skel orc orcOk fuel pre es,
    fun ev hev => (procChildren_events orc fuel pre es ev hev).2⟩

/-- C7 witness: skeleton equality instantiated at the failing-oracle run. -/
theorem claim_C7_witness :
    skel (procChildren (orcFailAt ["a b.txt"]) 1 []
        [Entry.file "a b.txt", Entry.file "c d.txt"]).2 =
      skel (procChildren orcOk 1 [] [Entry.file "a b.txt", Entry.file "c d.txt"]).2 :=
  (claim_C7.1 (orcFailAt ["a b.txt"]) 1 [] [Entry.file "a b.txt", Entry.file "c d.txt"]).1

/-! ## Validity of suffixed sanitized names -/

theorem is_valid_elim {s : String} (h : is_valid_windows_filename s = true) :
    reservedNames.contains ((splitextL s.data).1.map pyUpper) = false ∧
    endsWithSpaceDot s.data = false ∧ matchesAllowedPattern s.data = true := by
  unfold is_valid_windows_filename at h
  split at h
  · cases h
  · split at h
    · cases h
    · split at h
      · cases h
      · next h1 h2 h3 =>
        simp only [Bool.not_eq_true] at h1 h2 h3
        have h4 : matchesAllowedPattern s.data = true := by
          cases hp : matchesAllowedPattern s.data with
          | true => rfl
          | false =>
            rw [hp] at h3
            exact absurd h3 (by decide)
        exact ⟨h1, h2, h4⟩

theorem is_valid_intro {s : String}
    (h1 : reservedNames.contains ((splitextL s.data).1.map pyUpper) = false)
    (h2 : endsWithSpaceDot s.data = false)
    (h3 : matchesAllowedPattern s.data = true) :
    is_valid_windows_filename s = true := by
  unfold is_valid_windows_filename
  rw [h1, h2, h3]
  rfl

theorem stemKeep_allowed {c : Char} (h : stemKeep c = true) : allowedChar c = true := by
  simp only [stemKeep, Bool.or_eq_true] at h
  simp only [allowedChar, Bool.or_eq_true]
  tauto

theorem extKeep_allowed {c : Char} (h : extKeep c = true) : allowedChar c = true := by
  simp only [extKeep, Bool.or_eq_true] at h
  simp only [allowedChar, Bool.or_eq_true]
  tauto

theorem digit_allowed {c : Char} (h : isAsciiDigit c = true) : allowedChar c = true := by
  simp only [allowedChar, isAlnum, Bool.or_eq_true]
  tauto

theorem digit_ne_dot {c : Char} (h : isAsciiDigit c = true) : c ≠ '.' := by
  intro he
  subst he
  exact absurd h (by decide)

theorem digit_ne_space {c : Char} (h : isAsciiDigit c = true) : c ≠ ' ' := by
  intro he
  subst he
  exact absurd h (by decide)

theorem matches_of_all {l : List Char} (hne : l ≠ []) (h : l.all allowedChar = true) :
    matchesAllowedPattern l = true := by
  unfold matchesAllowedPattern
  have hie : l.isEmpty = false := by
    cases l with
    | nil => exact absurd rfl hne
    | cons a t => rfl
  rw [hie, h]
  rfl

theorem any_ne_dot_of_mem {a : List Char} {c : Char} (hc : c ∈ a) (hne : c ≠ '.') :
    a.any (fun x => x ≠ '.') = true :=
  List.any_eq_true.mpr ⟨c, hc, by simpa using hne⟩

theorem not_reserved_of_underscore {nm : List Char} (h : '_' ∈ nm) :
    reservedNames.contains (nm.map pyUpper) = false := by
  cases hc : reservedNames.contains (nm.map pyUpper) with
  | false => rfl
  | true =>
    exfalso
    have hm : nm.map pyUpper ∈ reservedNames := by
      simpa using hc
    have hu : '_' ∈ nm.map pyUpper := by
      rw [List.mem_map]
      exact ⟨'_', h, rfl⟩
    have hnone : ∀ rn ∈ reservedNames, '_' ∉ rn := by decide
    exact hnone _ hm hu

theorem lastCharIs_append {x y : List Char} {c : Char} (hy : y ≠ []) :
    lastCharIs (x ++ y) c = lastCharIs y c := by
  unfold lastCharIs
  rw [List.reverse_append]
  cases hr : y.reverse with
  | nil =>
    exfalso
    exact hy (by simpa using congrArg List.reverse hr)
  | cons a t => rfl

theorem endsWithSpaceDot_append {x y : List Char} (hy : y ≠ []) :
    endsWithSpaceDot (x ++ y) = endsWithSpaceDot y := by
  unfold endsWithSpaceDot
  rw [lastCharIs_append hy, lastCharIs_append hy]

theorem endsWithSpaceDot_digits {l : List Char} (h : ∀ c ∈ l, isAsciiDigit c = true) :
    endsWithSpaceDot l = false := by
  unfold endsWithSpaceDot
  rw [lastCharIs_false_of_all (fun x hx => digit_ne_space (h x hx)),
    lastCharIs_false_of_all (fun x hx => digit_ne_dot (h x hx))]
  rfl

/-- A nonempty name of stem-class characters followed by `_N` is always a
valid Windows filename: the underscore rules out the reserved stems, and the
final digit rules out trailing space or period. -/
theorem valid_underscore_digits {A : List Char} (hstem : ∀ c ∈ A, stemKeep c = true)
    (n : Nat) : is_valid_windows_filename ⟨A ++ '_' :: natReprL n⟩ = true := by
  have hall : ∀ c ∈ A ++ '_' :: natReprL n, allowedChar c = true := by
    intro c hc
    rcases List.mem_append.mp hc with h | h
    · exact stemKeep_allowed (hstem c h)
    · rcases List.mem_cons.mp h with h2 | h2
      · subst h2
        decide
      · exact digit_allowed (natReprL_digits n c h2)
  have hnodot : '.' ∉ A ++ '_' :: natReprL n := by
    intro hm
    rcases List.mem_append.mp hm with h | h
    · exact stemKeep_ne_dot (hstem '.' h) rfl
    · rcases List.mem_cons.mp h with h2 | h2
      · cases h2
      · exact digit_ne_dot (natReprL_digits n '.' h2) rfl
  apply is_valid_intro
  · show reservedNames.contains ((splitextL (A ++ '_' :: natReprL n)).1.map pyUpper) = false
    rw [splitext_no_dot _ hnodot]
    exact not_reserved_of_underscore
      (List.mem_append_right A (List.mem_cons_self '_' (natReprL n)))
  · show endsWithSpaceDot (A ++ '_' :: natReprL n) = false
    rw [endsWithSpaceDot_append (by simp : ('_' :: natReprL n : List Char) ≠ [])]
    have hsplit : ('_' :: natReprL n : List Char) = ['_'] ++ natReprL n := rfl
    rw [hsplit, endsWithSpaceDot_append (natReprL_ne_nil n)]
    exact endsWithSpaceDot_digits (natReprL_digits n)
  · show matchesAllowedPattern (A ++ '_' :: natReprL n) = true
    exact matches_of_all (by simp) (List.all_eq_true.mpr hall)

/-- Whenever the sanitized candidate is a valid name, so is any collision
suffixed form of it, for both files and directories. -/
theorem suffix_valid (k : EKind) (old : String) (n : Nat)
    (hv : is_valid_windows_filename (sanitizeS old) = true) :
    is_valid_windows_filename (applySuffix k (sanitizeS old) n) = true := by
  obtain ⟨heq, hne, hstem, hext⟩ := sanitize_structure old.data
  set A := cleanStem ['_'] (splitextL old.data).1 with hA
  set B := cleanExt ['_'] (splitextL old.data).2 with hB
  have hcd : (sanitizeS old).data = A ++ B := heq
  obtain ⟨hres, hend, hpat⟩ := is_valid_elim hv
  have hAall : ∀ c ∈ A, allowedChar c = true := fun c hc => stemKeep_allowed (hstem c hc)
  have hAnd : '.' ∉ A := fun hm => stemKeep_ne_dot (hstem '.' hm) rfl
  have hanyA : A.any (fun x => x ≠ '.') = true := by
    cases hAc : A with
    | nil => exact absurd hAc hne
    | cons a t =>
      refine any_ne_dot_of_mem (List.mem_cons_self a t) ?_
      exact stemKeep_ne_dot (hstem a (by rw [hAc]; exact List.mem_cons_self a t))
  rcases hext with hBnil | ⟨r, hBr, hrd, hrk⟩
  · -- no extension: both suffix forms are `A ++ '_' :: digits`
    have hcd2 : (sanitizeS old).data = A := by rw [hcd, hBnil, List.append_nil]
    have hsp : splitextL (sanitizeS old).data = ((sanitizeS old).data, []) :=
      splitext_no_dot _ (by rw [hcd2]; exact hAnd)
    cases k with
    | file =>
      have hfin : fileSuffix (sanitizeS old) n = ⟨A ++ '_' :: natReprL n⟩ := by
        unfold fileSuffix
        rw [hsp]
        exact congrArg String.mk (by rw [hcd2]; simp)
      show is_valid_windows_filename (fileSuffix (sanitizeS old) n) = true
      rw [hfin]
      exact valid_underscore_digits hstem n
    | dir =>
      have hfin : dirSuffix (sanitizeS old) n = ⟨A ++ '_' :: natReprL n⟩ := by
        unfold dirSuffix
        exact congrArg String.mk (by rw [hcd2])
      show is_valid_windows_filename (dirSuffix (sanitizeS old) n) = true
      rw [hfin]
      exact valid_underscore_digits hstem n
  · -- extension `'.' :: r`
    have hcd2 : (sanitizeS old).data = A ++ '.' :: r := by rw [hcd, hBr]
    have hsp : splitextL (sanitizeS old).data = (A, '.' :: r) := by
      rw [hcd2]
      exact splitext_split A r hrd hanyA
    have hrall : ∀ c ∈ r, allowedChar c = true := by
      intro c hc
      rcases hrk c hc with h | h
      · exact extKeep_allowed h
      · subst h
        decide
    have hend2 : endsWithSpaceDot ('.' :: r) = false := by
      rw [hcd2, endsWithSpaceDot_append (List.cons_ne_nil '.' r)] at hend
      exact hend
    cases k with
    | file =>
      have hfin : (fileSuffix (sanitizeS old) n).data =
          A ++ '_' :: (natReprL n ++ '.' :: r) := by
        show (splitextL (sanitizeS old).data).1 ++
          '_' :: (natReprL n ++ (splitextL (sanitizeS old).data).2) = _
        rw [hsp]
      show is_valid_windows_filename (fileSuffix (sanitizeS old) n) = true
      apply is_valid_intro
      · rw [hfin]
        have hassoc : A ++ '_' :: (natReprL n ++ '.' :: r) =
            (A ++ '_' :: natReprL n) ++ '.' :: r := by simp
        rw [hassoc, splitext_split (A ++ '_' :: natReprL n) r hrd
          (any_ne_dot_of_mem
            (List.mem_append_right A (List.mem_cons_self '_' (natReprL n))) (by decide))]
        exact not_reserved_of_underscore
          (List.mem_append_right A (List.mem_cons_self '_' (natReprL n)))
      · rw [hfin]
        rw [endsWithSpaceDot_append (by simp : ('_' :: (natReprL n ++ '.' :: r) : List Char) ≠ [])]
        have hsplit : ('_' :: (natReprL n ++ '.' :: r) : List Char) =
            ['_'] ++ (natReprL n ++ '.' :: r) := rfl
        rw [hsplit, endsWithSpaceDot_append (by simp : (natReprL n ++ '.' :: r : List Char) ≠ []),
          endsWithSpaceDot_append (List.cons_ne_nil '.' r)]
        exact hend2
      · rw [hfin]
        refine matches_of_all (by simp) (List.all_eq_true.mpr ?_)
        intro c hc
        rcases List.mem_append.mp hc with h | h
        · exact hAall c h
        · rcases List.mem_cons.mp h with h2 | h2
          · subst h2
            decide
          · rcases List.mem_append.mp h2 with h3 | h3
            · exact digit_allowed (natReprL_digits n c h3)
            · rcases List.mem_cons.mp h3 with h4 | h4
              · subst h4
                decide
              · exact hrall c h4
    | dir =>
      have hfin : (dirSuffix (sanitizeS old) n).data =
          A ++ '.' :: (r ++ '_' :: natReprL n) := by
        show (sanitizeS old).data ++ '_' :: natReprL n = _
        rw [hcd2]
        simp
      show is_valid_windows_filename (dirSuffix (sanitizeS old) n) = true
      apply is_valid_intro
      · rw [hfin]
        have hnd : '.' ∉ r ++ '_' :: natReprL n := by
          intro hm
          rcases List.mem_append.mp hm with h | h
          · exact hrd h
          · rcases List.mem_cons.mp h with h2 | h2
            · cases h2
            · exact digit_ne_dot (natReprL_digits n '.' h2) rfl
        rw [splitext_split A (r ++ '_' :: natReprL n) hnd hanyA]
        rw [hsp] at hres
        exact hres
      · rw [hfin]
        have hassoc : A ++ '.' :: (r ++ '_' :: natReprL n) =
            (A ++ '.' :: r) ++ '_' :: natReprL n := by simp
        rw [hassoc,
          endsWithSpaceDot_append (by simp : ('_' :: natReprL n : List Char) ≠ [])]
        have hsplit : ('_' :: natReprL n : List Char) = ['_'] ++ natReprL n := rfl
        rw [hsplit, endsWithSpaceDot_append (natReprL_ne_nil n)]
        exact endsWithSpaceDot_digits (natReprL_digits n)
      · rw [hfin]
        refine matches_of_all (by simp) (List.all_eq_true.mpr ?_)
        intro c hc
        rcases List.mem_append.mp hc with h | h
        · exact hAall c h
        · rcases List.mem_cons.mp h with h2 | h2
          · subst h2
            decide
          · rcases List.mem_append.mp h2 with h3 | h3
            · exact hrall c h3
            · rcases List.mem_cons.mp h3 with h4 | h4
              · subst h4
                decide
              · exact digit_allowed (natReprL_digits n c h4)

/-! ## One rename phase: the listing evolves by `PhaseRel` -/

theorem ename_withName (e : Entry) (m : String) : ename (withName e m) = m := by
  cases e <;> rfl

theorem withName_withName (e : Entry) (a b : String) :
    withName (withName e a) b = withName e b := by
  cases e <;> rfl

theorem renameIn_names (es : List Entry) (old fin : String) :
    namesOf (renameIn es old fin) =
      (namesOf es).map (fun m => if m = old then fin else m) := by
  unfold renameIn namesOf
  rw [List.map_map, List.map_map]
  refine List.map_congr_left ?_
  intro e _
  show ename (if ename e = old then withName e fin else e) =
    if ename e = old then fin else ename e
  by_cases h : ename e = old
  · rw [if_pos h, if_pos h, ename_withName]
  · rw [if_neg h, if_neg h]

theorem nodup_rename {l : List String} (old fin : String) (hnd : l.Nodup)
    (hfin : fin ∉ l) : (l.map (fun m => if m = old then fin else m)).Nodup := by
  induction l with
  | nil => simp
  | cons a t ih =>
    rw [List.map_cons]
    rw [List.nodup_cons] at hnd ⊢
    have hfa : fin ≠ a := fun he => hfin (he ▸ List.mem_cons_self a t)
    have hft : fin ∉ t := fun hm => hfin (List.mem_cons_of_mem a hm)
    refine ⟨?_, ih hnd.2 hft⟩
    intro hmem
    rw [List.mem_map] at hmem
    obtain ⟨b, hb, hbe⟩ := hmem
    by_cases hbo : b = old
    · rw [if_pos hbo] at hbe
      by_cases hao : a = old
      · exact hnd.1 (by rw [hao, ← hbo]; exact hb)
      · rw [if_neg hao] at hbe
        exact hfa hbe
    · rw [if_neg hbo] at hbe
      by_cases hao : a = old
      · rw [if_pos hao] at hbe
        exact hft (hbe ▸ hb)
      · rw [if_neg hao] at hbe
        exact hnd.1 (hbe ▸ hb)

theorem mem_rename_of_ne {l : List String} {m old : String} (fin : String)
    (hm : m ∈ l) (hne : m ≠ old) :
    m ∈ l.map (fun x => if x = old then fin else x) := by
  rw [List.mem_map]
  exact ⟨m, hm, by rw [if_neg hne]⟩

theorem processOne_orcOk_valid (k : EKind) (pre : List String) (cur : List Entry)
    (n : String) (hv : is_valid_windows_filename n = true) :
    processOne k orcOk pre cur n = (cur, []) := by
  unfold processOne
  rw [if_pos hv]

theorem processOne_orcOk_invalid (k : EKind) (pre : List String) (cur : List Entry)
    (n : String) (hv : is_valid_windows_filename n = false) :
    processOne k orcOk pre cur n =
      (renameIn cur n (resolveK k cur (sanitizeS n)),
       [⟨k, pre ++ [n], pre ++ [resolveK k cur (sanitizeS n)], true⟩]) := by
  simp only [processOne, hv, Bool.false_eq_true, if_false]
  rfl

theorem forall₂_mem_left {α β : Type} {R : α → β → Prop} :
    ∀ {l1 : List α} {l2 : List β}, List.Forall₂ R l1 l2 → ∀ a ∈ l1, ∃ b ∈ l2, R a b := by
  intro l1 l2 h
  induction h with
  | nil => intro a ha; cases ha
  | cons hr _ ih =>
    intro a ha
    rcases List.mem_cons.mp ha with h1 | h1
    · subst h1
      exact ⟨_, List.mem_cons_self _ _, hr⟩
    · obtain ⟨b, hb, hrb⟩ := ih a h1
      exact ⟨b, List.mem_cons_of_mem _ hb, hrb⟩

/-- Main invariant of one rename phase under the all-success oracle. -/
theorem processNames_corr (k : EKind) (pre : List String) :
    ∀ (ns : List String) (cur : List Entry) (K : List String),
      (namesOf cur).Nodup →
      ns.Nodup →
      (∀ n ∈ ns, n ∈ namesOf cur) →
      (∀ m ∈ K, m ∈ namesOf cur) →
      (∀ m ∈ K, m ∉ ns) →
      (namesOf (processNames k orcOk pre cur ns).1).Nodup ∧
      (∀ m ∈ K, m ∈ namesOf (processNames k orcOk pre cur ns).1) ∧
      List.Forall₂ (PhaseRel k ns K) cur (processNames k orcOk pre cur ns).1 := by
  intro ns
  induction ns with
  | nil =>
    intro cur K hnd _ _ hK _
    refine ⟨hnd, hK, ?_⟩
    show List.Forall₂ (PhaseRel k [] K) cur cur
    refine List.forall₂_same.mpr ?_
    intro c _
    exact ⟨⟨ename c, by cases c <;> rfl⟩, fun _ => rfl, fun h => absurd h (by simp),
      fun _ _ => rfl⟩
  | cons n ns ih =>
    intro cur K hnd hns hsub hK hKns
    have hnmem : n ∉ ns := (List.nodup_cons.mp hns).1
    have hnsnd : ns.Nodup := (List.nodup_cons.mp hns).2
    by_cases hv : is_valid_windows_filename n = true
    · -- valid snapshot name: nothing happens at this step
      have hstep : processNames k orcOk pre cur (n :: ns) =
          ((processNames k orcOk pre cur ns).1,
           [] ++ (processNames k orcOk pre cur ns).2) := by
        show ((processNames k orcOk pre (processOne k orcOk pre cur n).1 ns).1, _) = _
        rw [processOne_orcOk_valid k pre cur n hv]
      rw [hstep]
      obtain ⟨h1, h2, h3⟩ := ih cur K hnd hnsnd
        (fun m hm => hsub m (List.mem_cons_of_mem n hm)) hK
        (fun m hm hmem => hKns m hm (List.mem_cons_of_mem n hmem))
      refine ⟨h1, h2, ?_⟩
      refine List.Forall₂.imp ?_ h3
      intro c c2 hr
      obtain ⟨hw, hout, hinv, hval⟩ := hr
      refine ⟨hw, ?_, ?_, ?_⟩
      · intro hno
        exact hout (fun hm => hno (List.mem_cons_of_mem n hm))
      · intro hin hinvalid
        rcases List.mem_cons.mp hin with he | he
        · rw [he] at hinvalid
          rw [hv] at hinvalid
          cases hinvalid
        · exact hinv he hinvalid
      · intro hin hvalid
        rcases List.mem_cons.mp hin with he | he
        · exact hout (he ▸ hnmem)
        · exact hval he hvalid
    · -- invalid snapshot name: it is renamed to a fresh good name
      rw [Bool.not_eq_true] at hv
      have hstep : processNames k orcOk pre cur (n :: ns) =
          ((processNames k orcOk pre (renameIn cur n (resolveK k cur (sanitizeS n))) ns).1,
           [⟨k, pre ++ [n], pre ++ [resolveK k cur (sanitizeS n)], true⟩] ++
             (processNames k orcOk pre (renameIn cur n (resolveK k cur (sanitizeS n))) ns).2) := by
        show ((processNames k orcOk pre (processOne k orcOk pre cur n).1 ns).1, _) = _
        rw [processOne_orcOk_invalid k pre cur n hv]
      rw [hstep]
      set fin := resolveK k cur (sanitizeS n) with hfin
      have hspec := resolveK_spec k cur (sanitizeS n)
      have hfree : fin ∉ namesOf cur := existsName_false_iff.mp hspec.1
      have hGood : GoodName k n fin := hspec.2
      have hfinK : fin ∉ K := fun hm => hfree (hK fin hm)
      have hfinns : fin ∉ ns := fun hm => hfree (hsub fin (List.mem_cons_of_mem n hm))
      set cur1 := renameIn cur n fin with hcur1
      have hnames1 : namesOf cur1 = (namesOf cur).map (fun m => if m = n then fin else m) :=
        renameIn_names cur n fin
      have hnd1 : (namesOf cur1).Nodup := by
        rw [hnames1]
        exact nodup_rename n fin hnd hfree
      have hsub1 : ∀ m ∈ ns, m ∈ namesOf cur1 := by
        intro m hm
        rw [hnames1]
        exact mem_rename_of_ne fin (hsub m (List.mem_cons_of_mem n hm))
          (fun he => hnmem (he ▸ hm))
      have hK1 : ∀ m ∈ K, m ∈ namesOf cur1 := by
        intro m hm
        rw [hnames1]
        exact mem_rename_of_ne fin (hK m hm)
          (fun he => hKns m hm (he ▸ List.mem_cons_self n ns))
      obtain ⟨h1, h2, h3⟩ := ih cur1 K hnd1 hnsnd hsub1 hK1
        (fun m hm hmem => hKns m hm (List.mem_cons_of_mem n hmem))
      refine ⟨h1, h2, ?_⟩
      have hmap : cur1 = cur.map (fun e => if ename e = n then withName e fin else e) := rfl
      rw [hmap] at h3
      rw [List.forall₂_map_left_iff] at h3
      refine List.Forall₂.imp ?_ h3
      intro c c2 hr
      by_cases hc : ename c = n
      · rw [if_pos hc] at hr
        obtain ⟨hw, hout, _, _⟩ := hr
        have hc2 : c2 = withName c fin := hout (by rw [ename_withName]; exact hfinns)
        refine ⟨⟨fin, hc2⟩, ?_, ?_, ?_⟩
        · intro hno
          exact absurd (hc ▸ List.mem_cons_self n ns) hno
        · intro _ _
          exact ⟨fin, hc ▸ hGood, hfinK, hc2⟩
        · intro _ hvalid
          rw [hc, hv] at hvalid
          cases hvalid
      · rw [if_neg hc] at hr
        obtain ⟨hw, hout, hinv, hval⟩ := hr
        refine ⟨hw, ?_, ?_, ?_⟩
        · intro hno
          exact hout (fun hm => hno (List.mem_cons_of_mem n hm))
        · intro hin hinvalid
          rcases List.mem_cons.mp hin with he | he
          · exact absurd he hc
          · exact hinv he hinvalid
        · intro hin hvalid
          rcases List.mem_cons.mp hin with he | he
          · exact absurd he hc
          · exact hval he hvalid

/-! ## Assembling one directory level -/

theorem recurseWith_corr (g : String → List Entry → List Entry × List Event) :
    ∀ es : List Entry,
      (∀ n cs, Entry.dir n cs ∈ es → CorrList cs (g n cs).1) →
      List.Forall₂ RecRel es ((recurseWith g es).map Prod.fst) ∧
      namesOf ((recurseWith g es).map Prod.fst) = namesOf es := by
  intro es
  induction es with
  | nil => intro _; exact ⟨List.Forall₂.nil, rfl⟩
  | cons e t ih =>
    intro hg
    obtain ⟨ht1, ht2⟩ := ih (fun n cs hm => hg n cs (List.mem_cons_of_mem e hm))
    cases e with
    | file n =>
      refine ⟨List.Forall₂.cons ?_ ht1, ?_⟩
      · exact ⟨fun m hm => by injection hm with h; rw [h], fun m cs hm => Entry.noConfusion hm⟩
      · show n :: namesOf ((recurseWith g t).map Prod.fst) = n :: namesOf t
        rw [ht2]
    | dir n cs =>
      refine ⟨List.Forall₂.cons ?_ ht1, ?_⟩
      · refine ⟨fun m hm => Entry.noConfusion hm, fun m cs2 hm => ?_⟩
        injection hm with h1 h2
        subst h1
        subst h2
        exact ⟨(g n cs).1, rfl, hg n cs (List.mem_cons_self _ t)⟩
      · show n :: namesOf ((recurseWith g t).map Prod.fst) = n :: namesOf t
        rw [ht2]

theorem mem_fileNamesOf {es : List Entry} {n : String} (h : Entry.file n ∈ es) :
    n ∈ fileNamesOf es := by
  unfold fileNamesOf
  rw [List.mem_map]
  exact ⟨Entry.file n, List.mem_filter.mpr ⟨h, rfl⟩, rfl⟩

theorem mem_dirNamesOf {es : List Entry} {n : String} {cs : List Entry}
    (h : Entry.dir n cs ∈ es) : n ∈ dirNamesOf es := by
  unfold dirNamesOf
  rw [List.mem_map]
  exact ⟨Entry.dir n cs, List.mem_filter.mpr ⟨h, rfl⟩, rfl⟩

theorem fileNamesOf_sublist (es : List Entry) : List.Sublist (fileNamesOf es) (namesOf es) :=
  (List.filter_sublist es).map ename

theorem dirNamesOf_sublist (es : List Entry) : List.Sublist (dirNamesOf es) (namesOf es) :=
  (List.filter_sublist es).map ename

theorem nodup_names_inj {es : List Entry} (h : (namesOf es).Nodup) :
    ∀ e ∈ es, ∀ e2 ∈ es, ename e = ename e2 → e = e2 := by
  induction es with
  | nil => intro e he; cases he
  | cons a t ih =>
    intro e he e2 he2 hee
    have hnd := h
    rw [show namesOf (a :: t) = ename a :: namesOf t from rfl, List.nodup_cons] at hnd
    rcases List.mem_cons.mp he with h1 | h1 <;> rcases List.mem_cons.mp he2 with h2 | h2
    · rw [h1, h2]
    · subst h1
      exfalso
      apply hnd.1
      rw [hee]
      exact List.mem_map.mpr ⟨e2, h2, rfl⟩
    · subst h2
      exfalso
      apply hnd.1
      rw [← hee]
      exact List.mem_map.mpr ⟨e, h1, rfl⟩
    · exact ih hnd.2 e h1 e2 h2 hee

theorem names_disjoint {es : List Entry} (hnd : (namesOf es).Nodup) :
    ∀ m ∈ fileNamesOf es, m ∉ dirNamesOf es := by
  intro m hf hd
  unfold fileNamesOf at hf
  unfold dirNamesOf at hd
  rw [List.mem_map] at hf hd
  obtain ⟨e, hef, hee⟩ := hf
  obtain ⟨e2, hed, hee2⟩ := hd
  rw [List.mem_filter] at hef hed
  have heq := nodup_names_inj hnd e hef.1 e2 hed.1 (by rw [hee, hee2])
  rw [heq] at hef
  rw [hed.2] at hef
  exact absurd hef.2 (by decide)

theorem forall₂_trans_mem {α β γ : Type} {R : α → β → Prop} {S : β → γ → Prop}
    {T : α → γ → Prop} :
    ∀ (l1 : List α) (l2 : List β) (l3 : List γ),
      List.Forall₂ R l1 l2 → List.Forall₂ S l2 l3 →
      (∀ a b c, a ∈ l1 → b ∈ l2 → c ∈ l3 → R a b → S b c → T a c) →
      List.Forall₂ T l1 l3 := by
  intro l1
  induction l1 with
  | nil =>
    intro l2 l3 h1 h2 _
    cases h1
    cases h2
    exact List.Forall₂.nil
  | cons a t ih =>
    intro l2 l3 h1 h2 hstep
    cases h1 with
    | cons hr1 ht1 =>
      cases h2 with
      | cons hr2 ht2 =>
        refine List.Forall₂.cons
          (hstep _ _ _ (List.mem_cons_self _ _) (List.mem_cons_self _ _)
            (List.mem_cons_self _ _) hr1 hr2) ?_
        exact ih _ _ ht1 ht2 (fun x y z hx hy hz hr hs =>
          hstep x y z (List.mem_cons_of_mem _ hx) (List.mem_cons_of_mem _ hy)
            (List.mem_cons_of_mem _ hz) hr hs)

theorem corrList_of_forall₂ : ∀ {l l2 : List Entry}, List.Forall₂ Corr l l2 → CorrList l l2 := by
  intro l l2 h
  induction h with
  | nil => exact CorrList.nil
  | cons hr _ ih => exact CorrList.cons _ _ _ _ hr ih

/-- Processing one directory level with the all-success oracle turns a
listing with distinct names, whose subdirectory contents already
correspond, into a corresponding listing. -/
theorem level_corr (pre : List String) (f : Nat) (es : List Entry)
    (hnd : (namesOf es).Nodup)
    (hrec : ∀ n cs, Entry.dir n cs ∈ es →
      CorrList cs (procChildren orcOk f (pre ++ [n]) cs).1) :
    CorrList es (procChildren orcOk (f + 1) pre es).1 := by
  obtain ⟨hF2rec, hnames1⟩ :=
    recurseWith_corr (fun n cs => procChildren orcOk f (pre ++ [n]) cs) es hrec
  set es1 := ((recurseWith (fun n cs => procChildren orcOk f (pre ++ [n]) cs) es).map
    Prod.fst) with hes1
  have hnd1 : (namesOf es1).Nodup := by rw [hnames1]; exact hnd
  have hfsub : ∀ n ∈ fileNamesOf es, n ∈ namesOf es1 := by
    intro n hn
    rw [hnames1]
    exact (fileNamesOf_sublist es).subset hn
  have hdsub : ∀ n ∈ dirNamesOf es, n ∈ namesOf es1 := by
    intro n hn
    rw [hnames1]
    exact (dirNamesOf_sublist es).subset hn
  have hfnd : (fileNamesOf es).Nodup := hnd.sublist (fileNamesOf_sublist es)
  have hdnd : (dirNamesOf es).Nodup := hnd.sublist (dirNamesOf_sublist es)
  have hdisj : ∀ m ∈ dirNamesOf es, m ∉ fileNamesOf es := by
    intro m hm hmf
    exact names_disjoint hnd m hmf hm
  obtain ⟨hnd2, hK2, hF2f⟩ := processNames_corr .file pre (fileNamesOf es) es1
    (dirNamesOf es) hnd1 hfnd hfsub hdsub hdisj
  set es2 := (processNames .file orcOk pre es1 (fileNamesOf es)).1 with hes2
  obtain ⟨_, _, hF2d⟩ := processNames_corr .dir pre (dirNamesOf es) es2 [] hnd2 hdnd hK2
    (fun m hm => absurd hm (List.not_mem_nil m)) (fun m hm => absurd hm (List.not_mem_nil m))
  set es3 := (processNames .dir orcOk pre es2 (dirNamesOf es)).1 with hes3
  have hres : (procChildren orcOk (f + 1) pre es).1 = es3 := rfl
  rw [hres]
  -- compose the recursion step with the file phase
  have hT1 : List.Forall₂ (fun e e2 =>
      (∀ n, e = .file n → is_valid_windows_filename n = true → e2 = .file n) ∧
      (∀ n, e = .file n → is_valid_windows_filename n = false →
        ∃ fin, e2 = .file fin ∧ GoodName .file n fin ∧ fin ∉ dirNamesOf es) ∧
      (∀ n cs, e = .dir n cs → ∃ cs2, e2 = .dir n cs2 ∧ CorrList cs cs2)) es es2 := by
    refine forall₂_trans_mem es es1 es2 hF2rec hF2f ?_
    intro e e1 e2 hees _ _ hR hS
    obtain ⟨hRf, hRd⟩ := hR
    obtain ⟨_, hout, hinv, hval⟩ := hS
    refine ⟨?_, ?_, ?_⟩
    · intro n hef hv
      subst hef
      have he1 : e1 = .file n := hRf n rfl
      subst he1
      exact hval (mem_fileNamesOf hees) hv
    · intro n hef hv
      subst hef
      have he1 : e1 = .file n := hRf n rfl
      subst he1
      obtain ⟨fin, hg, hnk, he2⟩ := hinv (mem_fileNamesOf hees) hv
      exact ⟨fin, he2, hg, hnk⟩
    · intro n cs hed
      subst hed
      obtain ⟨cs2, he1, hcorr⟩ := hRd n cs rfl
      subst he1
      have hnot : ename (Entry.dir n cs2) ∉ fileNamesOf es := by
        show n ∉ fileNamesOf es
        intro hmem
        exact names_disjoint hnd n hmem (mem_dirNamesOf hees)
      rw [hout hnot]
      exact ⟨cs2, rfl, hcorr⟩
  -- compose with the directory phase
  refine corrList_of_forall₂ (forall₂_trans_mem es es2 es3 hT1 hF2d ?_)
  intro e e2 e3 hees _ _ hT hS
  obtain ⟨hTv, hTi, hTd⟩ := hT
  obtain ⟨_, hout, hinv, hval⟩ := hS
  cases e with
  | file n =>
    have hnotd : n ∉ dirNamesOf es := fun hm =>
      names_disjoint hnd n (mem_fileNamesOf hees) hm
    by_cases hv : is_valid_windows_filename n = true
    · have he2 : e2 = .file n := hTv n rfl hv
      subst he2
      rw [hout hnotd]
      exact Corr.fileOk n hv
    · rw [Bool.not_eq_true] at hv
      obtain ⟨fin, he2, hg, hfk⟩ := hTi n rfl hv
      subst he2
      rw [hout hfk]
      exact Corr.fileRen n fin hv hg
  | dir n cs =>
    obtain ⟨cs2, he2, hcorr⟩ := hTd n cs rfl
    subst he2
    have hmemd : ename (Entry.dir n cs2) ∈ dirNamesOf es := mem_dirNamesOf hees
    by_cases hv : is_valid_windows_filename n = true
    · rw [hval hmemd hv]
      exact Corr.dirOk n cs cs2 hv hcorr
    · rw [Bool.not_eq_true] at hv
      obtain ⟨fin, hg, _, he3⟩ := hinv hmemd hv
      rw [he3]
      exact Corr.dirRen n fin cs cs2 hv hg hcorr

/-! ## The whole tree -/

theorem nodupB_iff : ∀ l : List String, nodupB l = true ↔ l.Nodup := by
  intro l
  induction l with
  | nil => simp [nodupB]
  | cons n ns ih =>
    show (!ns.contains n && nodupB ns) = true ↔ (n :: ns).Nodup
    rw [List.nodup_cons, Bool.and_eq_true, Bool.not_eq_true', ih]
    constructor
    · rintro ⟨h1, h2⟩
      refine ⟨?_, h2⟩
      intro hm
      have h1b : List.elem n ns = false := h1
      rw [show List.elem n ns = true from List.elem_iff.mpr hm] at h1b
      cases h1b
    · rintro ⟨h1, h2⟩
      refine ⟨?_, h2⟩
      cases hc : ns.contains n with
      | false => rfl
      | true => exact absurd (List.elem_iff.mp hc) h1

theorem wfL_elim {f : Nat} {es : List Entry} (h : wfL (f + 1) es = true) :
    (namesOf es).Nodup ∧ ∀ n cs, Entry.dir n cs ∈ es → wfL f cs = true := by
  unfold wfL at h
  rw [Bool.and_eq_true] at h
  refine ⟨(nodupB_iff _).mp h.1, ?_⟩
  intro n cs hm
  have := List.all_eq_true.mp h.2 (Entry.dir n cs) hm
  exact this

/-- Processing a whole well-formed tree with the all-success oracle yields
a result in positional correspondence with the input. -/
theorem procChildren_corr : ∀ (fuel : Nat) (pre : List String) (es : List Entry),
    wfL fuel es = true → CorrList es (procChildren orcOk fuel pre es).1 := by
  intro fuel
  induction fuel with
  | zero =>
    intro pre es h
    exact absurd h (by simp [wfL])
  | succ f ih =>
    intro pre es hwf
    obtain ⟨hnd, hall⟩ := wfL_elim hwf
    exact level_corr pre f es hnd (fun n cs hm => ih (pre ++ [n]) cs (hall n cs hm))

/-! ## Claim theorems: the invariant -/

/-- C1 (counterexample): processing a directory containing only the file
`a..` (invalid: trailing period) renames it to `a_.`, the sanitized
candidate — but `a_.` still ends with a period, so the final name does
not satisfy the validator.  The claimed invariant "every renamed entry's
final name satisfies is_valid" fails on the code. -/
theorem claim_C1_counterexample :
    is_valid_windows_filename "a.." = false ∧
    wfL 1 [Entry.file "a.."] = true ∧
    namesOf (procChildren orcOk 1 [] [Entry.file "a.."]).1 = ["a_."] ∧
    is_valid_windows_filename "a_." = false := by
  decide

/-- C1 (amended): after processing completes with no rename failures and no
external interference, every entry reachable at traversal time either
already satisfied `is_valid` (and keeps its name), or has been renamed to
the name produced by sanitize plus collision suffixing (`GoodName`); that
final name satisfies `is_valid` whenever the sanitized candidate does — but
not in general (see the counterexample). -/
theorem claim_C1 :
    (∀ (fuel : Nat) (pre : List String) (es : List Entry), wfL fuel es = true →
      CorrList es (procChildren orcOk fuel pre es).1) ∧
    (∀ (k : EKind) (old fin : String), GoodName k old fin →
      is_valid_windows_filename (sanitizeS old) = true →
      is_valid_windows_filename fin = true) := by
  constructor
  · exact procChildren_corr
  · intro k old fin hg hv
    rcases hg with h | ⟨n, _, h⟩
    · rw [h]
      exact hv
    · rw [h]
      exact suffix_valid k old n hv

/-- C1 witness: the amended theorem applied to a two-level tree and to a
concrete `GoodName` instance whose candidate is valid. -/
theorem claim_C1_witness :
    CorrList [Entry.dir "d!" [Entry.file "b c.txt"]]
      (procChildren orcOk 2 [] [Entry.dir "d!" [Entry.file "b c.txt"]]).1 ∧
    is_valid_windows_filename "b_c.txt" = true := by
  constructor
  · exact claim_C1.1 2 [] [Entry.dir "d!" [Entry.file "b c.txt"]] (by decide)
  · exact claim_C1.2 .file "b c.txt" "b_c.txt" (Or.inl (by decide)) (by decide)

end Sanitizer
